import Mathlib

/-!
# Three-way radix quicksort for strings (`radix.go`)

A shallow embedding of the Go package `radix` and a verification of its
specification.

Modelling conventions.

* A Go `string` is a finite sequence of bytes: `GoString := List (Fin 256)`.
  The Go operator `<` on strings is byte-wise lexicographic comparison; it is
  `strLt` below.
* A Go slice `[]string` is modelled by the list of the elements of its window.
  A recursive call on a sub-slice `a[lo:hi]` rewrites exactly that part of the
  window, so the call returns the new contents of the sub-slice and the window
  becomes the concatenation of its parts.
* Go `int` values that the program obtains by subtraction are modelled in
  `Int`; lengths, the depth `d` and the depth budget (which start at a
  non-negative value and only move by guarded steps) are modelled in `Nat`.
  No index of the program can approach the `int` range, since every index is
  bounded by twice the length of a slice held in memory.
* Every index expression `a[i]` and `s[d]` is checked: outside the bounds the
  model stops with `Err.indexOutOfRange` (a Go run-time panic).
* Every loop and every recursive call consumes one unit of `fuel`; running out
  of it is `Err.outOfFuel`.  Termination is the statement that enough fuel
  gives a result.
* `qsort3` additionally records every entry into the Go function `qsort3`
  (window, depth, budget, nesting level): a ghost log that does not
  influence the computation.
-/

namespace Radix

/-- Failure of a run of the model. -/
inductive Err where
  | indexOutOfRange
  | outOfFuel
  deriving DecidableEq

/-- Outcome of a run of the model. -/
inductive Res (α : Type) where
  | ok : α → Res α
  | error : Err → Res α
  deriving DecidableEq

/-- Sequencing of runs: the first failure stops the program. -/
@[inline] def Res.bind {α β : Type} (r : Res α) (f : α → Res β) : Res β :=
  match r with
  | .ok a => f a
  | .error e => .error e

instance : Monad Res where
  pure := Res.ok
  bind := Res.bind

/-- The value of a successful run. -/
def Res.val? {α : Type} : Res α → Option α
  | .ok a => some a
  | .error _ => none

abbrev Byte := Fin 256
abbrev GoString := List Byte

/-- Go's `s < t` on strings: byte-wise lexicographic order. -/
def strLt : GoString → GoString → Bool
  | [], [] => false
  | [], _ :: _ => true
  | _ :: _, [] => false
  | x :: s, y :: t => if x < y then true else if y < x then false else strLt s t

/-- Go's `s <= t` on strings. -/
def strLe (s t : GoString) : Prop := strLt t s = false

instance : DecidableRel strLe := fun s t => by unfold strLe; infer_instance

/-- The function `byteAt(s, d)`: the byte at offset `d`, or `-1` past the end. -/
def byteAt (s : GoString) (d : Nat) : Int :=
  if h : d < s.length then ((s[d]).val : Int) else -1

/-- The function `max3(i, j, k)`. -/
def max3 (i j k : Int) : Int :=
  let max := i
  let max := if max < j then j else max
  let max := if max < k then k else max
  max

/-- The function `median3(i, j, k)`. -/
def median3 (i j k : Int) : Int :=
  if i < j then
    if j < k then j
    else if i < k then k
    else i
  else if k < j then j
  else if k < i then k
  else i

/-- The checked index expression `a[i]`. -/
def index (a : List GoString) (i : Int) : Res GoString :=
  if 0 ≤ i ∧ i < a.length then .ok (a.getD i.toNat []) else .error .indexOutOfRange

/-- The checked exchange `a[i], a[j] = a[j], a[i]`. -/
def swap (a : List GoString) (i j : Int) : Res (List GoString) := do
  let vj ← index a j
  let vi ← index a i
  pure ((a.set i.toNat vj).set j.toNat vi)

/-- The function `pivot(a, d)`: median of three, or Tukey's ninther above 40 elements. -/
def pivot (a : List GoString) (d : Nat) : Res Int := do
  let n : Int := a.length
  let m : Int := ((a.length >>> 1 : Nat) : Int)
  if n > 40 then
    let s : Int := ((a.length / 8 : Nat) : Int)
    let x0 ← index a 0
    let x1 ← index a s
    let x2 ← index a (2 * s)
    let y0 ← index a m
    let y1 ← index a (m - s)
    let y2 ← index a (m + s)
    let z0 ← index a (n - 1)
    let z1 ← index a (n - 1 - s)
    let z2 ← index a (n - 1 - 2 * s)
    pure (median3
      (median3 (byteAt x0 d) (byteAt x1 d) (byteAt x2 d))
      (median3 (byteAt y0 d) (byteAt y1 d) (byteAt y2 d))
      (median3 (byteAt z0 d) (byteAt z1 d) (byteAt z2 d)))
  else
    let x0 ← index a 0
    let x1 ← index a m
    let x2 ← index a (n - 1)
    pure (median3 (byteAt x0 d) (byteAt x1 d) (byteAt x2 d))

/-- The inner loop `for x < gt` of `qsort3` (Dijkstra's three-way partition),
started in the state `(a, eq, x, gt)`; it returns the window and the final
`eq` and `gt`. -/
def partition : Nat → List GoString → Nat → Int → Nat → Nat → Nat →
    Res (List GoString × Nat × Nat)
  | 0, _, _, _, _, _, _ => .error .outOfFuel
  | fuel + 1, a, d, p, eq, x, gt =>
    if x < gt then do
      let s ← index a x
      let cur := byteAt s d
      if cur < p then do
        let a ← swap a x eq
        partition fuel a d p (eq + 1) (x + 1) gt
      else if cur = p then
        partition fuel a d p eq (x + 1) gt
      else do
        let gt := gt - 1
        let a ← swap a x gt
        partition fuel a d p eq x gt
    else
      pure (a, eq, gt)

/-- The function `siftDown(data, lo, hi, first)`; the argument `root` is the loop variable,
initially `lo`. -/
def siftDown : Nat → List GoString → Int → Int → Int → Res (List GoString)
  | 0, _, _, _, _ => .error .outOfFuel
  | fuel + 1, data, root, hi, first =>
    let child := 2 * root + 1
    if child ≥ hi then pure data
    else do
      let child ←
        (if child + 1 < hi then do
          let u ← index data (first + child)
          let v ← index data (first + child + 1)
          pure (if strLt u v then child + 1 else child)
        else pure child)
      let r ← index data (first + root)
      let c ← index data (first + child)
      if !(strLt r c) then pure data
      else do
        let data ← swap data (first + root) (first + child)
        siftDown fuel data child hi first

/-- First loop of `heapSort`: `for i := ...; i >= 0; i-- { siftDown(data, i, hi, first) }`. -/
def heapBuild : Nat → List GoString → Int → Int → Int → Res (List GoString)
  | 0, _, _, _, _ => .error .outOfFuel
  | fuel + 1, data, i, hi, first =>
    if i ≥ 0 then do
      let data ← siftDown fuel data i hi first
      heapBuild fuel data (i - 1) hi first
    else pure data

/-- Second loop of `heapSort`:
`for i := ...; i >= 0; i-- { swap(first, first+i); siftDown(data, lo, i, first) }`. -/
def heapPop : Nat → List GoString → Int → Int → Int → Res (List GoString)
  | 0, _, _, _, _ => .error .outOfFuel
  | fuel + 1, data, i, lo, first =>
    if i ≥ 0 then do
      let data ← swap data first (first + i)
      let data ← siftDown fuel data lo i first
      heapPop fuel data (i - 1) lo first
    else pure data

/-- The function `heapSort(data, a, b)`.  Go's `/` on `int` truncates toward zero. -/
def heapSort (fuel : Nat) (data : List GoString) (a b : Int) : Res (List GoString) := do
  let first := a
  let lo := 0
  let hi := b - a
  let data ← heapBuild fuel data (Int.tdiv (hi - 1) 2) hi first
  heapPop fuel data (hi - 1) lo first

/-- The loop `for i := n; i > 0; i >>= 1 { depth++ }` of `maxDepth`. -/
def maxDepthLoop : Nat → Nat → Nat → Res Nat
  | 0, _, _ => .error .outOfFuel
  | fuel + 1, i, depth =>
    if i > 0 then maxDepthLoop fuel (i >>> 1) (depth + 1) else pure depth

/-- The function `maxDepth(n)`. -/
def maxDepth (fuel : Nat) (n : Nat) : Res Nat := do
  let depth ← maxDepthLoop fuel n 0
  pure (depth * 2)

/-- One entry into the Go function `qsort3`: the window on entry, the depth
`d`, the budget `maxDepth` on entry, and the nesting level of the call (0 for
the call made by `Sort`). -/
structure Call where
  win : List GoString
  d : Nat
  maxDepth : Nat
  level : Nat
  deriving DecidableEq

/-- The elements of the sub-slice `a[lo:hi]`. -/
def slice (a : List GoString) (lo hi : Nat) : List GoString := (a.take hi).drop lo

/-- The checked slice expression `a[lo:hi]`.  Go checks `hi` against the
capacity of `a`; the model checks it against the length, which is not larger. -/
def subslice (a : List GoString) (lo hi : Nat) : Res (List GoString) :=
  if lo ≤ hi ∧ hi ≤ a.length then .ok (slice a lo hi) else .error .indexOutOfRange

mutual
/-- The function `qsort3(a, d, maxDepth)`, called at nesting level `lvl`: the final
contents of the window and the log of the calls of `qsort3`. -/
def qsort3 : Nat → List GoString → Nat → Nat → Nat → Res (List GoString × List Call)
  | 0, _, _, _, _ => .error .outOfFuel
  | fuel + 1, a, d, maxDepth, lvl =>
    if maxDepth = 0 then do
      let r ← heapSort fuel a 0 a.length
      pure (r, [⟨a, d, maxDepth, lvl⟩])
    else do
      let (r, log) ← qsort3Loop fuel a d (maxDepth - 1) lvl
      pure (r, ⟨a, d, maxDepth, lvl⟩ :: log)
termination_by structural fuel => fuel
/-- The outer loop `for len(a) > 1` of `qsort3`, entered with window `a`,
depth `d` and the decremented budget: the final contents of `a`.  The
statement `a = a[lo:hi]` followed by the next iteration is the recursive use
of `qsort3Loop` at the same nesting level. -/
def qsort3Loop : Nat → List GoString → Nat → Nat → Nat → Res (List GoString × List Call)
  | 0, _, _, _, _ => .error .outOfFuel
  | fuel + 1, a, d, maxDepth, lvl =>
    if a.length > 1 then do
      let p ← pivot a d
      let (a, eq, gt) ← partition fuel a d p 0 0 a.length
      let n : Int := a.length
      if p < 0 then
        if (eq : Int) < n - gt then do
          let w ← subslice a 0 eq
          let (l, log1) ← qsort3 fuel w d maxDepth (lvl + 1)
          let w ← subslice a gt a.length
          let (g, log2) ← qsort3Loop fuel w d maxDepth lvl
          pure (l ++ slice a eq gt ++ g, log1 ++ log2)
        else do
          let w ← subslice a gt a.length
          let (g, log1) ← qsort3 fuel w d maxDepth (lvl + 1)
          let w ← subslice a 0 eq
          let (l, log2) ← qsort3Loop fuel w d maxDepth lvl
          pure (l ++ slice a eq gt ++ g, log1 ++ log2)
      else
        let max := max3 eq (gt - eq) (n - gt)
        if (eq : Int) = max then do
          let w ← subslice a eq gt
          let (e, log1) ← qsort3 fuel w (d + 1) maxDepth (lvl + 1)
          let w ← subslice a gt a.length
          let (g, log2) ← qsort3 fuel w d maxDepth (lvl + 1)
          let w ← subslice a 0 eq
          let (l, log3) ← qsort3Loop fuel w d maxDepth lvl
          pure (l ++ e ++ g, log1 ++ log2 ++ log3)
        else if (gt : Int) - eq = max then do
          let w ← subslice a 0 eq
          let (l, log1) ← qsort3 fuel w d maxDepth (lvl + 1)
          let w ← subslice a gt a.length
          let (g, log2) ← qsort3 fuel w d maxDepth (lvl + 1)
          let w ← subslice a eq gt
          let (e, log3) ← qsort3Loop fuel w (d + 1) maxDepth lvl
          pure (l ++ e ++ g, log1 ++ log2 ++ log3)
        else do
          let w ← subslice a 0 eq
          let (l, log1) ← qsort3 fuel w d maxDepth (lvl + 1)
          let w ← subslice a eq gt
          let (e, log2) ← qsort3 fuel w (d + 1) maxDepth (lvl + 1)
          let w ← subslice a gt a.length
          let (g, log3) ← qsort3Loop fuel w d maxDepth lvl
          pure (l ++ e ++ g, log1 ++ log2 ++ log3)
    else
      pure (a, [])
termination_by structural fuel => fuel
end

/-- The exported function `Sort(a)` (`Sort` is a reserved word of Lean). -/
def sort (fuel : Nat) (a : List GoString) : Res (List GoString × List Call) := do
  let md ← maxDepth fuel a.length
  qsort3 fuel a 0 md 0


/-! ## The vocabulary of the specification -/

/-- The exchange of positions `i` and `j`, unchecked. -/
def swapN (a : List GoString) (i j : Nat) : List GoString :=
  (a.set i (a.getD j [])).set j (a.getD i [])

/-- The partition invariant of `qsort3`: `data[:eq] < pivot`,
`data[eq:x] = pivot`, `data[gt:] > pivot`, for the bytes at index `d`. -/
def PartInv (a : List GoString) (d : Nat) (p : Int) (eq x gt : Nat) : Prop :=
  eq ≤ x ∧ x ≤ gt ∧ gt ≤ a.length ∧
  (∀ k, k < eq → byteAt (a.getD k []) d < p) ∧
  (∀ k, eq ≤ k → k < x → byteAt (a.getD k []) d = p) ∧
  (∀ k, gt ≤ k → k < a.length → p < byteAt (a.getD k []) d)

/-- Element `k` of the window that starts at offset `first`. -/
def win (data : List GoString) (first k : Nat) : GoString := data.getD (first + k) []

/-- Node `k` of the heap on `[0, hi)` is not below its children. -/
def HeapAt (data : List GoString) (first hi k : Nat) : Prop :=
  ∀ c, (c = 2 * k + 1 ∨ c = 2 * k + 2) → c < hi → strLe (win data first c) (win data first k)

/-- The heap property holds at every node of `[lo, hi)`. -/
def HeapFrom (data : List GoString) (first lo hi : Nat) : Prop :=
  ∀ k, lo ≤ k → k < hi → HeapAt data first hi k

/-- The number of strings of the window plus the number of their bytes at or
after offset `d`: it decreases along the loop and the recursion of `qsort3`. -/
def mu (a : List GoString) (d : Nat) : Nat := (a.map (fun s => 1 + (s.length - d))).sum

/-- The strings of the window agree on their bytes below offset `d`. -/
def AgreeBelow (d : Nat) (a : List GoString) : Prop :=
  ∀ s ∈ a, ∀ t ∈ a, ∀ i, i < d → byteAt s i = byteAt t i

instance (d : Nat) (a : List GoString) : Decidable (AgreeBelow d a) := by
  unfold AgreeBelow; infer_instance

/-- Every string of the window has at least `d` bytes. -/
def LongEnough (d : Nat) (a : List GoString) : Prop := ∀ s ∈ a, d ≤ s.length

/-- What the partition loop hands to the rest of `qsort3`: the three regions
of the window `a2`, a permutation of `a`. -/
structure Regions (a a2 : List GoString) (d : Nat) (p : Int) (eq gt : Nat) : Prop where
  perm : a2.Perm a
  le1 : eq ≤ gt
  le2 : gt ≤ a2.length
  split : a2 = slice a2 0 eq ++ slice a2 eq gt ++ slice a2 gt a2.length
  lenL : (slice a2 0 eq).length = eq
  lenE : (slice a2 eq gt).length = gt - eq
  lenG : (slice a2 gt a2.length).length = a2.length - gt
  lt : ∀ s ∈ slice a2 0 eq, byteAt s d < p
  eqv : ∀ s ∈ slice a2 eq gt, byteAt s d = p
  gtv : ∀ s ∈ slice a2 gt a2.length, p < byteAt s d

/-- What holds of a call `c` logged by `qsort3(a, d, md)` run at level `lvl`. -/
def CallOK (a : List GoString) (d md lvl : Nat) (c : Call) : Prop :=
  lvl ≤ c.level ∧ c.maxDepth + c.level = md + lvl ∧
  c.win.length * 2 ^ (c.level - lvl) ≤ a.length ∧
  (lvl < c.level → 2 ^ (c.level - lvl) ≤ a.length) ∧
  (AgreeBelow d a → AgreeBelow c.d c.win) ∧ (LongEnough d a → LongEnough c.d c.win)

/-- What holds of a call `c` logged by the loop of `qsort3` run at level `lvl`
on the window `a` with the decremented budget `md`. -/
def LoopCallOK (a : List GoString) (d md lvl : Nat) (c : Call) : Prop :=
  lvl < c.level ∧ c.maxDepth + c.level = md + 1 + lvl ∧
  c.win.length * 2 ^ (c.level - lvl) ≤ a.length ∧ 2 ^ (c.level - lvl) ≤ a.length ∧
  (AgreeBelow d a → AgreeBelow c.d c.win) ∧ (LongEnough d a → LongEnough c.d c.win)

/-- What a run of `qsort3` or of its loop on the window `a` at depth `d`
establishes about the final window. -/
def Sorts (a : List GoString) (d : Nat) (out : List GoString) : Prop :=
  out.Perm a ∧ (AgreeBelow d a → List.Sorted strLe out)

/-- The number of binary digits of `n`. -/
def bitLen (n : Nat) : Nat := if n = 0 then 0 else Nat.log 2 n + 1

/-- An amount of fuel that is enough for `Sort(a)`. -/
def sortFuel (a : List GoString) : Nat := 2 * mu a 0 + 4

/-- The outcome `r2` is `r1`, unless `r1` ran out of fuel. -/
def Ext {α : Type} (r1 r2 : Res α) : Prop := r1 ≠ .error .outOfFuel → r2 = r1

/-- The middle value of three integers: what is left of the triple when its
least and its greatest value are taken away. -/
def middle (i j k : Int) : Int := i + j + k - min i (min j k) - max i (max j k)

/-- The byte at offset `d` of the string at index `i` of the window:
`byteAt(a[i], d)` for an index within the window. -/
def sample (a : List GoString) (d i : Nat) : Int := byteAt (a.getD i []) d

/-- The order of strings in terms of `byteAt`: the strings agree below some
offset `d` and at `d` the byte of `s` is below the byte of `t`. -/
def FirstDiffLt (s t : GoString) : Prop :=
  ∃ d, (∀ i, i < d → byteAt s i = byteAt t i) ∧ byteAt s d < byteAt t d

/-- The precondition of `qsort3(a, d, maxDepth)` in the words of the
specification: every string of the window has at least `d` bytes and all of
them have the same first `d` bytes. -/
def SharedPrefix (d : Nat) (a : List GoString) : Prop :=
  (∀ s ∈ a, d ≤ s.length) ∧ (∀ s ∈ a, ∀ t ∈ a, s.take d = t.take d)

instance (d : Nat) (a : List GoString) : Decidable (SharedPrefix d a) := by
  unfold SharedPrefix; infer_instance

/-- One pass of the outer loop `for len(a) > 1` of `qsort3`, as far as the
loop variables go: the pivot, the partition, and then the window `a[lo:hi]`
and the depth (`d` or `d+1`) that the pass assigns to `a` and `d` before the
loop continues.  The recursive calls of the pass work on the other regions of
the window and are left out. -/
def loopNext (fuel : Nat) (a : List GoString) (d : Nat) : Res (List GoString × Nat) := do
  let p ← pivot a d
  let (a, eq, gt) ← partition fuel a d p 0 0 a.length
  let n : Int := a.length
  if p < 0 then
    if (eq : Int) < n - gt then do
      let w ← subslice a gt a.length
      pure (w, d)
    else do
      let w ← subslice a 0 eq
      pure (w, d)
  else
    let max := max3 eq (gt - eq) (n - gt)
    if (eq : Int) = max then do
      let w ← subslice a 0 eq
      pure (w, d)
    else if (gt : Int) - eq = max then do
      let w ← subslice a eq gt
      pure (w, d + 1)
    else do
      let w ← subslice a gt a.length
      pure (w, d)

/-- The values `(w, e)` that the loop variables `a` and `d` take at the head
of the loop of `qsort3` entered with the window `a` at depth `d`: the initial
values, and after each pass on a window of more than one string the values
`loopNext` gives. -/
inductive LoopReach (a : List GoString) (d : Nat) : List GoString → Nat → Prop where
  | start : LoopReach a d a d
  | next (w : List GoString) (e : Nat) (w2 : List GoString) (e2 fuel : Nat) :
      LoopReach a d w e → 1 < w.length → loopNext fuel w e = .ok (w2, e2) →
      LoopReach a d w2 e2

/-! ## Runs -/

@[simp] theorem Res.ok_bind {α β : Type} (a : α) (f : α → Res β) :
    (Res.ok a >>= f) = f a := rfl

@[simp] theorem Res.error_bind {α β : Type} (e : Err) (f : α → Res β) :
    ((Res.error e : Res α) >>= f) = Res.error e := rfl

@[simp] theorem Res.pure_eq {α : Type} (a : α) : (pure a : Res α) = Res.ok a := rfl

/-! ## The order of strings -/

theorem strLt_irrefl (s : GoString) : strLt s s = false := by
  induction s with
  | nil => rfl
  | cons x s ih => simp [strLt, ih]

theorem strLt_asymm : ∀ (s t : GoString), strLt s t = true → strLt t s = false
  | [], [], _ => rfl
  | [], _ :: _, _ => rfl
  | _ :: _, [], h => by simp [strLt] at h
  | x :: s, y :: t, h => by
    simp only [strLt] at h ⊢
    by_cases h1 : x < y
    · have h2 : ¬ y < x := lt_asymm h1
      simp [h2, h1]
    · by_cases h2 : y < x
      · simp [h1, h2] at h
      · simp only [h1, h2, if_false] at h ⊢
        exact strLt_asymm s t h

theorem strLt_trans : ∀ (s t u : GoString), strLt s t = true → strLt t u = true →
    strLt s u = true
  | [], _, [], _, h2 => by cases ‹GoString› <;> simp [strLt] at h2
  | [], _, _ :: _, _, _ => rfl
  | _ :: _, [], _, h1, _ => by simp [strLt] at h1
  | _ :: _, _ :: _, [], _, h2 => by simp [strLt] at h2
  | x :: s, y :: t, z :: u, h1, h2 => by
    simp only [strLt] at h1 h2 ⊢
    by_cases a1 : x < y
    · by_cases b1 : y < z
      · simp [lt_trans a1 b1]
      · by_cases b2 : z < y
        · simp [b1, b2] at h2
        · have e : y = z := le_antisymm (not_lt.mp b2) (not_lt.mp b1)
          subst e; simp [a1]
    · by_cases a2 : y < x
      · simp [a1, a2] at h1
      · have e : x = y := le_antisymm (not_lt.mp a2) (not_lt.mp a1)
        subst e
        by_cases b1 : x < z
        · simp [b1]
        · by_cases b2 : z < x
          · simp [b1, b2] at h2
          · simp only [a1, b1, b2, if_false] at h1 h2 ⊢
            exact strLt_trans s t u h1 h2

theorem strLt_connex : ∀ (s t : GoString), strLt s t = false → strLt t s = false → s = t
  | [], [], _, _ => rfl
  | [], _ :: _, h, _ => by simp [strLt] at h
  | _ :: _, [], _, h => by simp [strLt] at h
  | x :: s, y :: t, h1, h2 => by
    simp only [strLt] at h1 h2
    by_cases a1 : x < y
    · simp [a1] at h1
    · by_cases a2 : y < x
      · simp [a2] at h2
      · have e : x = y := le_antisymm (not_lt.mp a2) (not_lt.mp a1)
        subst e
        simp only [a1, if_false] at h1 h2
        rw [strLt_connex s t h1 h2]

theorem strLe_refl (s : GoString) : strLe s s := strLt_irrefl s

theorem strLe_of_strLt {s t : GoString} (h : strLt s t = true) : strLe s t :=
  strLt_asymm s t h

theorem strLe_total (s t : GoString) : strLe s t ∨ strLe t s := by
  cases h : strLt t s
  · exact Or.inl h
  · exact Or.inr (strLt_asymm t s h)

theorem strLe_antisymm {s t : GoString} (h1 : strLe s t) (h2 : strLe t s) : s = t :=
  strLt_connex s t h2 h1

theorem strLe_trans {s t u : GoString} (h1 : strLe s t) (h2 : strLe t u) : strLe s u := by
  unfold strLe at *
  cases h : strLt u s
  · rfl
  · -- u < s ≤ t, so u < t or u = t; both contradict t ≤ u
    cases h3 : strLt s t
    · have e : s = t := strLt_connex s t h3 h1
      subst e; rw [h] at h2; cases h2
    · have := strLt_trans u s t h h3
      rw [this] at h2; cases h2

instance : IsTotal GoString strLe := ⟨strLe_total⟩
instance : IsTrans GoString strLe := ⟨fun _ _ _ => strLe_trans⟩
instance : IsAntisymm GoString strLe := ⟨fun _ _ => strLe_antisymm⟩

/-! ## Indexing and exchanging -/

theorem index_ok (a : List GoString) (n : Nat) (h : n < a.length) :
    index a (n : Int) = .ok (a.getD n []) := by
  have h2 : (0 : Int) ≤ n ∧ (n : Int) < a.length := ⟨by omega, by omega⟩
  simp [index, h2]

theorem index_ok_int (a : List GoString) (i : Int) (h0 : 0 ≤ i) (h : i < a.length) :
    index a i = .ok (a.getD i.toNat []) := by
  simp [index, h0, h]

theorem swap_ok (a : List GoString) (i j : Nat) (hi : i < a.length) (hj : j < a.length) :
    swap a (i : Int) (j : Int) = .ok (swapN a i j) := by
  simp [swap, index_ok, hi, hj, swapN]

theorem length_swapN (a : List GoString) (i j : Nat) : (swapN a i j).length = a.length := by
  simp [swapN]

theorem getD_swapN (a : List GoString) (i j k : Nat) (hi : i < a.length) (hj : j < a.length) :
    (swapN a i j).getD k [] =
      if k = j then a.getD i [] else if k = i then a.getD j [] else a.getD k [] := by
  simp only [swapN, List.getD_eq_getElem?_getD, List.getElem?_set, List.length_set]
  by_cases h1 : k = j
  · subst h1; simp [hj]
  · by_cases h2 : k = i
    · subst h2; simp [hi, h1, Ne.symm h1]
    · simp [h1, h2, Ne.symm h1, Ne.symm h2]

theorem cons_set_perm {α : Type} : ∀ (t : List α) (j : Nat) (b h : α), t[j]? = some b →
    (b :: t.set j h).Perm (h :: t)
  | [], _, _, _, hb => by simp at hb
  | c :: t, 0, b, h, hb => by
    simp at hb; subst hb
    simpa using List.Perm.swap h c t
  | c :: t, j + 1, b, h, hb => by
    simp at hb
    have ih := cons_set_perm t j b h hb
    calc (b :: (c :: t).set (j + 1) h).Perm (c :: b :: t.set j h) := by
          simpa using List.Perm.swap c b (t.set j h)
      _ |>.Perm (c :: h :: t) := List.Perm.cons c ih
      _ |>.Perm (h :: c :: t) := List.Perm.swap h c t

theorem set_set_perm_of_ne {α : Type} : ∀ (l : List α) (i j : Nat) (a b : α), i ≠ j →
    l[i]? = some a → l[j]? = some b → ((l.set i b).set j a).Perm l
  | [], _, _, _, _, _, ha, _ => by simp at ha
  | c :: l, 0, 0, _, _, hne, _, _ => absurd rfl hne
  | c :: l, 0, j + 1, a, b, _, ha, hb => by
    simp at ha hb; subst ha
    simpa using cons_set_perm l j b c hb
  | c :: l, i + 1, 0, a, b, _, ha, hb => by
    simp at ha hb; subst hb
    simpa using (cons_set_perm l i a c ha)
  | c :: l, i + 1, j + 1, a, b, hne, ha, hb => by
    simp at ha hb
    simpa using set_set_perm_of_ne l i j a b (by omega) ha hb

theorem swapN_perm (a : List GoString) (i j : Nat) (hi : i < a.length) (hj : j < a.length) :
    (swapN a i j).Perm a := by
  by_cases h : i = j
  · subst h
    have : swapN a i i = a := by
      apply List.ext_getElem? 
      intro k
      simp only [swapN, List.getElem?_set, List.length_set, List.getD_eq_getElem?_getD]
      by_cases hk : i = k
      · subst hk; simp [hi, List.getElem?_eq_getElem]
      · simp [hk]
    rw [this]
  · unfold swapN
    apply set_set_perm_of_ne a i j _ _ h
    · simp [List.getD_eq_getElem?_getD, List.getElem?_eq_getElem, hi]
    · simp [List.getD_eq_getElem?_getD, List.getElem?_eq_getElem, hj]

/-! ## The three-way partition -/

theorem partition_spec : ∀ (fuel : Nat) (a : List GoString) (d : Nat) (p : Int)
    (eq x gt : Nat), PartInv a d p eq x gt → gt - x < fuel →
    ∃ a2 eq2 gt2, partition fuel a d p eq x gt = .ok (a2, eq2, gt2) ∧
      a2.Perm a ∧ PartInv a2 d p eq2 gt2 gt2
  | 0, _, _, _, _, _, _, _, hf => by omega
  | fuel + 1, a, d, p, eq, x, gt, hinv, hf => by
    obtain ⟨h1, h2, h3, hlt, heq, hgt⟩ := hinv
    rw [partition]
    by_cases hx : x < gt
    · have hxl : x < a.length := by omega
      simp only [hx, if_true, index_ok a x hxl, Res.ok_bind]
      by_cases hc : byteAt (a.getD x []) d < p
      · simp only [hc, if_true, swap_ok a x eq hxl (by omega), Res.ok_bind]
        have hinv2 : PartInv (swapN a x eq) d p (eq + 1) (x + 1) gt := by
          refine ⟨by omega, by omega, by rw [length_swapN]; omega, ?_, ?_, ?_⟩
          · intro k hk
            rw [getD_swapN a x eq k hxl (by omega)]
            by_cases e1 : k = eq
            · simp only [e1, if_true]; exact hc
            · have e2 : k ≠ x := by omega
              simp only [e1, e2, if_false]
              exact hlt k (by omega)
          · intro k hk1 hk2
            rw [getD_swapN a x eq k hxl (by omega)]
            have e1 : k ≠ eq := by omega
            by_cases e2 : k = x
            · subst e2
              simp only [e1, if_false, if_true]
              exact heq eq (le_refl _) (by omega)
            · simp only [e1, e2, if_false]
              exact heq k (by omega) (by omega)
          · intro k hk1 hk2
            rw [length_swapN] at hk2
            rw [getD_swapN a x eq k hxl (by omega)]
            have e1 : k ≠ eq := by omega
            have e2 : k ≠ x := by omega
            simp only [e1, e2, if_false]
            exact hgt k hk1 hk2
        obtain ⟨a2, eq2, gt2, hr, hp, hi⟩ :=
          partition_spec fuel (swapN a x eq) d p (eq + 1) (x + 1) gt hinv2 (by omega)
        exact ⟨a2, eq2, gt2, hr, hp.trans (swapN_perm a x eq hxl (by omega)), hi⟩
      · by_cases hc2 : byteAt (a.getD x []) d = p
        · simp only [hc, hc2, if_true, if_false]
          have hinv2 : PartInv a d p eq (x + 1) gt := by
            refine ⟨by omega, by omega, h3, hlt, ?_, hgt⟩
            intro k hk1 hk2
            by_cases e : k = x
            · rw [e]; exact hc2
            · exact heq k hk1 (by omega)
          have := partition_spec fuel a d p eq (x + 1) gt hinv2 (by omega)
          simpa [hc2] using this
        · simp only [hc, hc2, if_false]
          rw [swap_ok a x (gt - 1) hxl (by omega)]
          simp only [Res.ok_bind]
          have hinv2 : PartInv (swapN a x (gt - 1)) d p eq x (gt - 1) := by
            refine ⟨h1, by omega, by rw [length_swapN]; omega, ?_, ?_, ?_⟩
            · intro k hk
              rw [getD_swapN a x (gt - 1) k hxl (by omega)]
              have e1 : k ≠ gt - 1 := by omega
              have e2 : k ≠ x := by omega
              simp only [e1, e2, if_false]
              exact hlt k hk
            · intro k hk1 hk2
              rw [getD_swapN a x (gt - 1) k hxl (by omega)]
              have e1 : k ≠ gt - 1 := by omega
              have e2 : k ≠ x := by omega
              simp only [e1, e2, if_false]
              exact heq k hk1 hk2
            · intro k hk1 hk2
              rw [length_swapN] at hk2
              rw [getD_swapN a x (gt - 1) k hxl (by omega)]
              by_cases e1 : k = gt - 1
              · simp only [e1, if_true]
                omega
              · simp only [e1, if_false]
                have e2 : k ≠ x := by omega
                simp only [e2, if_false]
                exact hgt k (by omega) hk2
          obtain ⟨a2, eq2, gt2, hr, hp, hi⟩ :=
            partition_spec fuel (swapN a x (gt - 1)) d p eq x (gt - 1) hinv2 (by omega)
          exact ⟨a2, eq2, gt2, hr, hp.trans (swapN_perm a x (gt - 1) hxl (by omega)), hi⟩
    · have e : x = gt := by omega
      subst e
      simp only [hx, if_false, Res.pure_eq]
      exact ⟨a, eq, x, rfl, List.Perm.refl a, h1, le_refl _, h3, hlt, heq, hgt⟩

/-! ## Heapsort -/

theorem index_ok_cast (a : List GoString) (i : Int) (n : Nat) (hi : i = n) (h : n < a.length) :
    index a i = .ok (a.getD n []) := by
  subst hi; exact index_ok a n h

theorem swap_ok_cast (a : List GoString) (i j : Int) (n m : Nat) (hi : i = n) (hj : j = m)
    (hn : n < a.length) (hm : m < a.length) : swap a i j = .ok (swapN a n m) := by
  subst hi; subst hj; exact swap_ok a n m hn hm

theorem win_swapN (data : List GoString) (first r c k : Nat)
    (hr : first + r < data.length) (hc : first + c < data.length) :
    win (swapN data (first + r) (first + c)) first k =
      if k = c then win data first r else if k = r then win data first c
      else win data first k := by
  unfold win
  rw [getD_swapN data _ _ _ hr hc]
  by_cases h1 : k = c
  · simp [h1]
  · by_cases h2 : k = r
    · simp [h1, h2]
    · simp [h1, h2]

/-- Specification of `siftDown`, stated for the loop started at `root`: the
heap property holds everywhere in `[lo, hi)` except at `root`, and the children of
`root` are not above the parent of `root`. -/
theorem siftDown_spec : ∀ (fuel : Nat) (data : List GoString) (lo root hi first : Nat),
    lo ≤ root → first + hi ≤ data.length → hi - root < fuel →
    (∀ k, lo ≤ k → k < hi → k ≠ root → HeapAt data first hi k) →
    (∀ k, lo ≤ k → (2 * k + 1 = root ∨ 2 * k + 2 = root) →
      ∀ c, (c = 2 * root + 1 ∨ c = 2 * root + 2) → c < hi →
        strLe (win data first c) (win data first k)) →
    ∃ data2, siftDown fuel data root hi first = .ok data2 ∧ data2.Perm data ∧
      HeapFrom data2 first lo hi ∧
      (∀ j, (j < first + lo ∨ first + hi ≤ j) → data2.getD j [] = data.getD j []) ∧
      (∀ P : GoString → Prop, (∀ k, lo ≤ k → k < hi → P (win data first k)) →
        ∀ k, lo ≤ k → k < hi → P (win data2 first k))
  | 0, _, _, _, _, _, _, _, hf, _, _ => by omega
  | fuel + 1, data, lo, root, hi, first, hlo, hlen, hf, I1, I2 => by
    rw [siftDown]
    by_cases hch : hi ≤ 2 * root + 1
    · have hch2 : (2 * (root : Int) + 1 ≥ (hi : Int)) := by omega
      simp only [hch2, if_true, Res.pure_eq]
      refine ⟨data, rfl, List.Perm.refl _, ?_, fun _ _ => rfl, fun P h => h⟩
      intro k hk1 hk2
      by_cases hkr : k = root
      · subst hkr
        intro c hc hc2
        omega
      · exact I1 k hk1 hk2 hkr
    · have hch2 : ¬ (2 * (root : Int) + 1 ≥ (hi : Int)) := by omega
      simp only [hch2, if_false]
      -- the rest of the body, for the selected child `c`
      have key : ∀ (ci : Int) (c : Nat), ci = (c : Int) → (c = 2 * root + 1 ∨ c = 2 * root + 2) →
          c < hi →
          (∀ c2, (c2 = 2 * root + 1 ∨ c2 = 2 * root + 2) → c2 < hi →
            strLe (win data first c2) (win data first c)) →
          ∃ data2, (do
              let r ← index data ((first : Int) + (root : Int))
              let cv ← index data ((first : Int) + ci)
              if !(strLt r cv) then pure data
              else do
                let data ← swap data ((first : Int) + (root : Int)) ((first : Int) + ci)
                siftDown fuel data ci hi first) = Res.ok data2 ∧ data2.Perm data ∧
            HeapFrom data2 first lo hi ∧
            (∀ j, (j < first + lo ∨ first + hi ≤ j) → data2.getD j [] = data.getD j []) ∧
            (∀ P : GoString → Prop, (∀ k, lo ≤ k → k < hi → P (win data first k)) →
              ∀ k, lo ≤ k → k < hi → P (win data2 first k)) := by
        intro ci c hci hc hchi hmax
        subst hci
        have hr : first + root < data.length := by omega
        have hcl : first + c < data.length := by omega
        rw [index_ok_cast data _ (first + root) (by push_cast; ring) hr,
          index_ok_cast data _ (first + c) (by push_cast; ring) hcl]
        simp only [Res.ok_bind]
        cases hlt : strLt (data.getD (first + root) []) (data.getD (first + c) [])
        · -- the root is not below its greatest child: the heap is restored
          simp only [Bool.not_false, if_true, Res.pure_eq]
          refine ⟨data, rfl, List.Perm.refl _, ?_, fun _ _ => rfl, fun P h => h⟩
          intro k hk1 hk2
          by_cases hkr : k = root
          · subst hkr
            intro c2 hc2 hc2hi
            exact strLe_trans (hmax c2 hc2 hc2hi) hlt
          · exact I1 k hk1 hk2 hkr
        · simp only [Bool.not_true, Bool.false_eq_true, if_false]
          rw [swap_ok_cast data _ _ (first + root) (first + c) (by push_cast; ring)
            (by push_cast; ring) hr hcl]
          simp only [Res.ok_bind]
          have hw := win_swapN data first root c
          have hrc : strLe (win data first root) (win data first c) := strLe_of_strLt hlt
          obtain ⟨data3, hrun, hperm, hheap, hout, hP⟩ :=
            siftDown_spec fuel (swapN data (first + root) (first + c)) lo c hi first
              (by omega) (by rw [length_swapN]; exact hlen) (by omega)
              (by
                intro k hk1 hk2 hkc c2 hc2 hc2hi
                rw [hw c2 hr hcl, hw k hr hcl]
                by_cases hkr : k = root
                · subst hkr
                  have e1 : ¬ k = c := by omega
                  by_cases e2 : c2 = c
                  · simp only [e2, e1, if_true, if_false]; exact hrc
                  · have e3 : ¬ c2 = k := by omega
                    simp only [e1, e2, e3, if_true, if_false]
                    exact hmax c2 hc2 hc2hi
                · have e1 : ¬ c2 = c := by omega
                  simp only [hkc, hkr, e1, if_false]
                  by_cases e2 : c2 = root
                  · simp only [e2, if_true]
                    exact I2 k hk1 (by omega) c hc hchi
                  · simp only [e2, if_false]
                    exact I1 k hk1 hk2 hkr c2 hc2 hc2hi)
              (by
                intro k hk1 hk c2 hc2 hc2hi
                have ek : k = root := by omega
                subst ek
                rw [hw c2 hr hcl, hw k hr hcl]
                have e1 : ¬ c2 = c := by omega
                have e2 : ¬ c2 = k := by omega
                have e3 : ¬ k = c := by omega
                simp only [e1, e2, e3, if_true, if_false]
                exact I1 c (by omega) hchi (by omega) c2 hc2 hc2hi)
          refine ⟨data3, hrun, hperm.trans (swapN_perm data _ _ hr hcl), hheap, ?_, ?_⟩
          · intro j hj
            rw [hout j hj, getD_swapN data _ _ _ hr hcl]
            have e1 : ¬ j = first + c := by omega
            have e2 : ¬ j = first + root := by omega
            simp only [e1, e2, if_false]
          · intro P hPd
            apply hP
            intro k hk1 hk2
            rw [hw k hr hcl]
            by_cases e1 : k = c
            · simp only [e1, if_true]; exact hPd root hlo (by omega)
            · by_cases e2 : k = root
              · rw [if_neg e1, if_pos e2]; exact hPd c (by omega) hchi
              · simp only [e1, e2, if_false]; exact hPd k hk1 hk2
      by_cases h2 : 2 * root + 2 < hi
      · have h2i : (2 * (root : Int) + 1 + 1 < (hi : Int)) := by omega
        have hu : first + (2 * root + 1) < data.length := by omega
        have hv : first + (2 * root + 2) < data.length := by omega
        simp only [h2i, if_true]
        rw [index_ok_cast data _ (first + (2 * root + 1)) (by push_cast; ring) hu,
          index_ok_cast data _ (first + (2 * root + 2)) (by push_cast; ring) hv]
        simp only [Res.ok_bind, Res.pure_eq]
        cases hlt : strLt (data.getD (first + (2 * root + 1)) [])
            (data.getD (first + (2 * root + 2)) [])
        · simp only [Bool.false_eq_true, if_false]
          refine key _ (2 * root + 1) (by push_cast; ring) (Or.inl rfl) (by omega) ?_
          intro c2 hc2 _
          rcases hc2 with e | e
          · subst e; exact strLe_refl _
          · subst e; exact hlt
        · simp only [if_true]
          refine key _ (2 * root + 2) (by push_cast; ring) (Or.inr rfl) h2 ?_
          intro c2 hc2 _
          rcases hc2 with e | e
          · subst e; exact strLe_of_strLt hlt
          · subst e; exact strLe_refl _
      · have h2i : ¬ (2 * (root : Int) + 1 + 1 < (hi : Int)) := by omega
        simp only [h2i, if_false, Res.pure_eq, Res.ok_bind]
        refine key _ (2 * root + 1) (by push_cast; ring) (Or.inl rfl) (by omega) ?_
        intro c2 hc2 hc2hi
        rcases hc2 with e | e
        · subst e; exact strLe_refl _
        · omega

theorem heap_root_max (data : List GoString) (first m : Nat)
    (h : HeapFrom data first 0 m) : ∀ k, k < m → strLe (win data first k) (win data first 0) := by
  intro k
  induction k using Nat.strong_induction_on with
  | _ k ih =>
    intro hk
    by_cases h0 : k = 0
    · subst h0; exact strLe_refl _
    · have hp : (k - 1) / 2 < k := by omega
      have h1 := ih ((k - 1) / 2) hp (by omega)
      have h2 := h ((k - 1) / 2) (Nat.zero_le _) (by omega) k (by omega) hk
      exact strLe_trans h2 h1

theorem heapBuild_spec : ∀ (m fuel : Nat) (data : List GoString) (i : Int) (hi first : Nat),
    i = (m : Int) - 1 → first + hi ≤ data.length → hi + m + 2 ≤ fuel →
    HeapFrom data first m hi →
    ∃ data2, heapBuild fuel data i hi first = .ok data2 ∧ data2.Perm data ∧
      HeapFrom data2 first 0 hi ∧
      (∀ j, (j < first ∨ first + hi ≤ j) → data2.getD j [] = data.getD j [])
  | 0, fuel, data, i, hi, first, hi0, _, hf, hheap => by
    obtain ⟨fuel, rfl⟩ : ∃ f, fuel = f + 1 := ⟨fuel - 1, by omega⟩
    have hneg : ¬ (i ≥ 0) := by omega
    rw [heapBuild]
    simp only [hneg, if_false, Res.pure_eq]
    exact ⟨data, rfl, List.Perm.refl _, hheap, fun _ _ => rfl⟩
  | m + 1, fuel, data, i, hi, first, hi0, hlen, hf, hheap => by
    obtain ⟨fuel, rfl⟩ : ∃ f, fuel = f + 1 := ⟨fuel - 1, by omega⟩
    have him : i = (m : Int) := by omega
    subst him
    have hpos : ((m : Int) ≥ 0) := by omega
    rw [heapBuild]
    simp only [hpos, if_true]
    obtain ⟨data1, hrun1, hperm1, hheap1, hout1, _⟩ :=
      siftDown_spec fuel data m m hi first (le_refl _) hlen (by omega)
        (fun k hk1 hk2 hkm => hheap k (by omega) hk2)
        (fun k hk1 hk => by omega)
    rw [hrun1]
    simp only [Res.ok_bind]
    obtain ⟨data2, hrun2, hperm2, hheap2, hout2⟩ :=
      heapBuild_spec m fuel data1 ((m : Int) - 1) hi first rfl
        (by rw [hperm1.length_eq]; exact hlen) (by omega) hheap1
    refine ⟨data2, hrun2, hperm2.trans hperm1, hheap2, ?_⟩
    intro j hj
    rw [hout2 j hj]
    exact hout1 j (by omega)

theorem heapPop_spec : ∀ (m fuel : Nat) (data : List GoString) (i : Int) (n first : Nat),
    i = (m : Int) - 1 → first + n ≤ data.length → m ≤ n → m + 2 ≤ fuel →
    HeapFrom data first 0 m →
    (∀ k, m ≤ k → k + 1 < n → strLe (win data first k) (win data first (k + 1))) →
    (m < n → ∀ k, k < m → strLe (win data first k) (win data first m)) →
    ∃ data2, heapPop fuel data i 0 first = .ok data2 ∧ data2.Perm data ∧
      (∀ k, k + 1 < n → strLe (win data2 first k) (win data2 first (k + 1))) ∧
      (∀ j, (j < first ∨ first + n ≤ j) → data2.getD j [] = data.getD j [])
  | 0, fuel, data, i, n, first, hi0, _, _, hf, _, hsorted, _ => by
    obtain ⟨fuel, rfl⟩ : ∃ f, fuel = f + 1 := ⟨fuel - 1, by omega⟩
    have hneg : ¬ (i ≥ 0) := by omega
    rw [heapPop]
    simp only [hneg, if_false, Res.pure_eq]
    exact ⟨data, rfl, List.Perm.refl _, fun k hk => hsorted k (Nat.zero_le _) hk, fun _ _ => rfl⟩
  | m + 1, fuel, data, i, n, first, hi0, hlen, hmn, hf, hheap, hsorted, hbelow => by
    obtain ⟨fuel, rfl⟩ : ∃ f, fuel = f + 1 := ⟨fuel - 1, by omega⟩
    have him : i = (m : Int) := by omega
    subst him
    have hpos : ((m : Int) ≥ 0) := by omega
    have h0 : first + 0 < data.length := by omega
    have hm : first + m < data.length := by omega
    rw [heapPop]
    simp only [hpos, if_true]
    rw [swap_ok_cast data _ _ (first + 0) (first + m) (by simp) (by push_cast; ring) h0 hm]
    simp only [Res.ok_bind]
    have hw := fun k => win_swapN data first 0 m k h0 hm
    have hmax := heap_root_max data first (m + 1) hheap
    obtain ⟨data2, hrun2, hperm2, hheap2, hout2, hP2⟩ :=
      siftDown_spec fuel (swapN data (first + 0) (first + m)) 0 0 m first (le_refl _)
        (by rw [length_swapN]; omega) (by omega)
        (by
          intro k _ hk2 hk0 c hc hcm
          rw [hw c, hw k]
          have e1 : ¬ c = m := by omega
          have e2 : ¬ c = 0 := by omega
          have e3 : ¬ k = m := by omega
          simp only [e1, e2, e3, hk0, if_false]
          exact hheap k (Nat.zero_le _) (by omega) c hc (by omega))
        (fun k _ hk => by omega)
    have hrun2b : siftDown fuel (swapN data (first + 0) (first + m)) (0 : Int) (m : Int)
        (first : Int) = Res.ok data2 := by
      simpa using hrun2
    rw [hrun2b]
    simp only [Res.ok_bind]
    have hlen2 : data2.length = data.length := by
      rw [hperm2.length_eq, length_swapN]
    have hwin2 : ∀ k, m ≤ k → win data2 first k =
        if k = m then win data first 0 else win data first k := by
      intro k hk
      have := hout2 (first + k) (Or.inr (by omega))
      unfold win at hw ⊢
      rw [this, hw k]
      by_cases e1 : k = m
      · simp only [e1, if_true]
      · have e2 : ¬ k = 0 := by omega
        simp only [e1, e2, if_false]
    obtain ⟨data3, hrun3, hperm3, hsorted3, hout3⟩ :=
      heapPop_spec m fuel data2 ((m : Int) - 1) n first rfl (by omega) (by omega) (by omega)
        hheap2
        (by
          intro k hk1 hk2
          rw [hwin2 k hk1, hwin2 (k + 1) (by omega)]
          have e1 : ¬ k + 1 = m := by omega
          simp only [e1, if_false]
          by_cases e2 : k = m
          · subst e2
            simp only [if_true]
            exact hbelow (by omega) 0 (by omega)
          · simp only [e2, if_false]
            exact hsorted k (by omega) hk2)
        (by
          intro _ k hk
          rw [hwin2 m (le_refl _)]
          simp only [if_true]
          refine hP2 (fun s => strLe s (win data first 0)) ?_ k (Nat.zero_le _) hk
          intro j _ hj
          rw [hw j]
          have e1 : ¬ j = m := by omega
          simp only [e1, if_false]
          by_cases e2 : j = 0
          · simp only [e2, if_true]
            exact hmax m (by omega)
          · simp only [e2, if_false]
            exact hmax j (by omega))
    refine ⟨data3, hrun3, (hperm3.trans hperm2).trans (swapN_perm data _ _ h0 hm), hsorted3, ?_⟩
    intro j hj
    rw [hout3 j hj, hout2 j (by omega), getD_swapN data _ _ _ h0 hm]
    have e1 : ¬ j = first + m := by omega
    have e2 : ¬ j = first + 0 := by omega
    simp only [e1, e2, if_false]

/-! ## Slices -/

theorem slice_length (a : List GoString) (lo hi : Nat) (h : hi ≤ a.length) :
    (slice a lo hi).length = hi - lo := by
  simp [slice, List.length_drop, List.length_take, Nat.min_eq_left h]

theorem slice_getD (a : List GoString) (lo hi k : Nat) (hk : lo + k < hi) :
    (slice a lo hi).getD k [] = a.getD (lo + k) [] := by
  simp only [slice, List.getD_eq_getElem?_getD, List.getElem?_drop, List.getElem?_take]
  simp [hk]

theorem slice_full (a : List GoString) : slice a 0 a.length = a := by
  simp [slice]

theorem slice_split (a : List GoString) (lo hi : Nat) (h : lo ≤ hi) :
    a = a.take lo ++ slice a lo hi ++ a.drop hi := by
  have h1 : a.take lo = (a.take hi).take lo := by
    rw [List.take_take, Nat.min_eq_left h]
  rw [h1, slice, List.take_append_drop, List.take_append_drop]

theorem mem_slice {a : List GoString} {lo hi : Nat} {s : GoString} (h : s ∈ slice a lo hi) :
    ∃ k, lo ≤ k ∧ k < hi ∧ k < a.length ∧ a.getD k [] = s := by
  obtain ⟨n, hn⟩ := List.mem_iff_getElem?.mp h
  simp only [slice, List.getElem?_drop, List.getElem?_take] at hn
  by_cases hlt : lo + n < hi
  · simp only [hlt, if_true] at hn
    have hlen : lo + n < a.length := by
      by_contra hc
      rw [List.getElem?_eq_none (by omega)] at hn
      cases hn
    exact ⟨lo + n, by omega, hlt, hlen, by simp [List.getD_eq_getElem?_getD, hn]⟩
  · simp [hlt] at hn

theorem sorted_of_adjacent : ∀ (l : List GoString),
    (∀ k, k + 1 < l.length → strLe (l.getD k []) (l.getD (k + 1) [])) → List.Sorted strLe l
  | [], _ => List.sorted_nil
  | [x], _ => List.sorted_singleton x
  | x :: y :: l, h => by
    have ih : List.Sorted strLe (y :: l) := by
      apply sorted_of_adjacent (y :: l)
      intro k hk
      have := h (k + 1) (by simpa using hk)
      simpa using this
    have hxy : strLe x y := by simpa using h 0 (by simp)
    exact List.Sorted.cons hxy ih

theorem take_eq_of_getD (a b : List GoString) (n : Nat) (hlen : a.length = b.length)
    (h : ∀ j, j < n → a.getD j [] = b.getD j []) : a.take n = b.take n := by
  apply List.ext_getElem?
  intro k
  simp only [List.getElem?_take]
  by_cases hk : k < n
  · simp only [hk, if_true]
    have := h k hk
    by_cases hka : k < a.length
    · have hkb : k < b.length := by omega
      simp only [List.getD_eq_getElem?_getD, List.getElem?_eq_getElem hka,
        List.getElem?_eq_getElem hkb, Option.getD_some] at this
      rw [List.getElem?_eq_getElem hka, List.getElem?_eq_getElem hkb, this]
    · rw [List.getElem?_eq_none (by omega), List.getElem?_eq_none (by omega)]
  · simp [hk]

theorem drop_eq_of_getD (a b : List GoString) (n : Nat) (hlen : a.length = b.length)
    (h : ∀ j, n ≤ j → a.getD j [] = b.getD j []) : a.drop n = b.drop n := by
  apply List.ext_getElem?
  intro k
  simp only [List.getElem?_drop]
  have := h (n + k) (by omega)
  by_cases hka : n + k < a.length
  · have hkb : n + k < b.length := by omega
    simp only [List.getD_eq_getElem?_getD, List.getElem?_eq_getElem hka,
      List.getElem?_eq_getElem hkb, Option.getD_some] at this
    rw [List.getElem?_eq_getElem hka, List.getElem?_eq_getElem hkb, this]
  · rw [List.getElem?_eq_none (by omega), List.getElem?_eq_none (by omega)]

theorem tdiv_start (h : Nat) :
    Int.tdiv ((h : Int) - 1) 2 = (((h - 1) / 2 + 1 : Nat) : Int) - 1 := by
  cases h with
  | zero => decide
  | succ k =>
    have e : (((k + 1 : Nat) : Int) - 1) = (k : Int) := by push_cast; ring
    rw [e]
    have : Int.tdiv (k : Int) 2 = ((k / 2 : Nat) : Int) := rfl
    rw [this]
    simp

/-- Specification of `heapSort(data, a, b)` for `a ≤ b ≤ len(data)`. -/
theorem heapSort_spec (fuel : Nat) (data : List GoString) (a b : Nat) (hab : a ≤ b)
    (hb : b ≤ data.length) (hf : 2 * (b - a) + 3 ≤ fuel) :
    ∃ r, heapSort fuel data a b = .ok r ∧ r.Perm data ∧
      (slice r a b).Perm (slice data a b) ∧ List.Sorted strLe (slice r a b) ∧
      r.take a = data.take a ∧ r.drop b = data.drop b := by
  have e : (b : Int) - (a : Int) = ((b - a : Nat) : Int) := by omega
  unfold heapSort
  simp only [e]
  obtain ⟨d1, hrun1, hperm1, hheap1, hout1⟩ :=
    heapBuild_spec ((b - a - 1) / 2 + 1) fuel data (Int.tdiv (((b - a : Nat) : Int) - 1) 2)
      (b - a) a (tdiv_start (b - a)) (by omega) (by omega)
      (by
        intro k hk1 hk2 c hc hc2
        omega)
  rw [hrun1]
  simp only [Res.ok_bind]
  have hlen1 : d1.length = data.length := hperm1.length_eq
  obtain ⟨d2, hrun2, hperm2, hsorted2, hout2⟩ :=
    heapPop_spec (b - a) fuel d1 (((b - a : Nat) : Int) - 1) (b - a) a rfl (by omega)
      (le_refl _) (by omega) hheap1 (fun k hk1 hk2 => by omega) (fun h => by omega)
  rw [hrun2]
  have hlen2 : d2.length = data.length := by rw [hperm2.length_eq, hlen1]
  have htake : d2.take a = data.take a := by
    apply take_eq_of_getD _ _ _ hlen2
    intro j hj
    rw [hout2 j (Or.inl hj), hout1 j (Or.inl hj)]
  have hdrop : d2.drop b = data.drop b := by
    apply drop_eq_of_getD _ _ _ hlen2
    intro j hj
    rw [hout2 j (Or.inr (by omega)), hout1 j (Or.inr (by omega))]
  have hperm : d2.Perm data := hperm2.trans hperm1
  refine ⟨d2, rfl, hperm, ?_, ?_, htake, hdrop⟩
  · have h1 := slice_split d2 a b hab
    have h2 := slice_split data a b hab
    rw [h1, h2, htake, hdrop] at hperm
    exact (List.perm_append_left_iff _).mp ((List.perm_append_right_iff _).mp hperm)
  · apply sorted_of_adjacent
    intro k hk
    rw [slice_length d2 a b (by omega)] at hk
    rw [slice_getD d2 a b k (by omega), slice_getD d2 a b (k + 1) (by omega)]
    exact hsorted2 k hk

/-! ## Bytes and the order of strings -/

theorem byteAt_nil (d : Nat) : byteAt [] d = -1 := by
  simp [byteAt]

theorem byteAt_cons_zero (x : Byte) (s : GoString) : byteAt (x :: s) 0 = (x.val : Int) := by
  simp [byteAt]

theorem byteAt_cons_succ (x : Byte) (s : GoString) (d : Nat) :
    byteAt (x :: s) (d + 1) = byteAt s d := by
  simp [byteAt]

theorem byteAt_ge (s : GoString) (d : Nat) : -1 ≤ byteAt s d := by
  unfold byteAt
  split
  · omega
  · exact le_refl _

theorem byteAt_of_lt (s : GoString) (d : Nat) (h : d < s.length) : 0 ≤ byteAt s d := by
  unfold byteAt
  simp only [h, dif_pos]
  omega

theorem byteAt_of_le (s : GoString) (d : Nat) (h : s.length ≤ d) : byteAt s d = -1 := by
  unfold byteAt
  have : ¬ d < s.length := by omega
  simp only [this, dif_neg, not_false_iff]

theorem lt_length_of_byteAt (s : GoString) (d : Nat) (h : 0 ≤ byteAt s d) : d < s.length := by
  by_contra hc
  rw [byteAt_of_le s d (by omega)] at h
  omega

/-- A first difference of the bytes decides the order of two strings. -/
theorem strLt_of_byteAt_lt : ∀ (d : Nat) (s t : GoString),
    (∀ i, i < d → byteAt s i = byteAt t i) → byteAt s d < byteAt t d → strLt s t = true
  | 0, [], [], _, h => by simp [byteAt_nil] at h
  | 0, [], _ :: _, _, _ => rfl
  | 0, x :: s, [], _, h => by
    rw [byteAt_nil, byteAt_cons_zero] at h; omega
  | 0, x :: s, y :: t, _, h => by
    rw [byteAt_cons_zero, byteAt_cons_zero] at h
    have hxy : x < y := by
      rw [Fin.lt_def]; omega
    simp [strLt, hxy]
  | d + 1, [], [], _, h => by simp [byteAt_nil] at h
  | d + 1, [], y :: t, hag, _ => by
    have := hag 0 (by omega)
    rw [byteAt_nil, byteAt_cons_zero] at this; omega
  | d + 1, x :: s, [], hag, _ => by
    have := hag 0 (by omega)
    rw [byteAt_nil, byteAt_cons_zero] at this; omega
  | d + 1, x :: s, y :: t, hag, h => by
    have h0 := hag 0 (by omega)
    rw [byteAt_cons_zero, byteAt_cons_zero] at h0
    have hxy : x = y := by
      apply Fin.ext; omega
    subst hxy
    rw [byteAt_cons_succ, byteAt_cons_succ] at h
    have ih := strLt_of_byteAt_lt d s t
      (fun i hi => by
        have := hag (i + 1) (by omega)
        rwa [byteAt_cons_succ, byteAt_cons_succ] at this) h
    simp [strLt, ih]

/-- Strings that agree below `d` and both end at `d` are equal. -/
theorem eq_of_byteAt_end : ∀ (d : Nat) (s t : GoString),
    (∀ i, i < d → byteAt s i = byteAt t i) → byteAt s d = -1 → byteAt t d = -1 → s = t
  | 0, [], [], _, _, _ => rfl
  | 0, [], y :: t, _, _, h => by
    rw [byteAt_cons_zero] at h; omega
  | 0, x :: s, _, _, h, _ => by
    rw [byteAt_cons_zero] at h; omega
  | d + 1, [], [], _, _, _ => rfl
  | d + 1, [], y :: t, hag, _, _ => by
    have := hag 0 (by omega)
    rw [byteAt_nil, byteAt_cons_zero] at this; omega
  | d + 1, x :: s, [], hag, _, _ => by
    have := hag 0 (by omega)
    rw [byteAt_nil, byteAt_cons_zero] at this; omega
  | d + 1, x :: s, y :: t, hag, h1, h2 => by
    have h0 := hag 0 (by omega)
    rw [byteAt_cons_zero, byteAt_cons_zero] at h0
    have hxy : x = y := by
      apply Fin.ext; omega
    subst hxy
    rw [byteAt_cons_succ] at h1 h2
    have ih := eq_of_byteAt_end d s t
      (fun i hi => by
        have := hag (i + 1) (by omega)
        rwa [byteAt_cons_succ, byteAt_cons_succ] at this) h1 h2
    rw [ih]

/-! ## The pivot -/

theorem median3_cases (P : Int → Prop) (i j k : Int) (hi : P i) (hj : P j) (hk : P k) :
    P (median3 i j k) := by
  unfold median3
  split_ifs <;> assumption

theorem max3_ge (i j k : Int) : i ≤ max3 i j k ∧ j ≤ max3 i j k ∧ k ≤ max3 i j k := by
  unfold max3
  simp only
  split_ifs <;> omega

theorem max3_mem (i j k : Int) : max3 i j k = i ∨ max3 i j k = j ∨ max3 i j k = k := by
  unfold max3
  simp only
  split_ifs <;> simp

/-- The pivot of a non-empty window is the byte at `d` of one of its strings. -/
theorem pivot_spec (a : List GoString) (d : Nat) (h : 1 ≤ a.length) :
    ∃ p, pivot a d = .ok p ∧ ∃ k, k < a.length ∧ p = byteAt (a.getD k []) d := by
  have hP : ∀ i : Int, 0 ≤ i → i < a.length →
      ∃ k, k < a.length ∧ byteAt (a.getD i.toNat []) d = byteAt (a.getD k []) d :=
    fun i h0 h1 => ⟨i.toNat, by omega, rfl⟩
  have hm : (a.length >>> 1) = a.length / 2 := by
    simp [Nat.shiftRight_eq_div_pow]
  unfold pivot
  simp only [hm]
  by_cases hn : (a.length : Int) > 40
  · simp only [hn, if_true]
    have c0 : (0 : Int) ≤ 0 ∧ (0 : Int) < a.length := by omega
    have c1 : (0 : Int) ≤ ((a.length / 8 : Nat) : Int) ∧
        ((a.length / 8 : Nat) : Int) < a.length := by omega
    have c2 : (0 : Int) ≤ 2 * ((a.length / 8 : Nat) : Int) ∧
        2 * ((a.length / 8 : Nat) : Int) < a.length := by omega
    have c3 : (0 : Int) ≤ ((a.length / 2 : Nat) : Int) ∧
        ((a.length / 2 : Nat) : Int) < a.length := by omega
    have c4 : (0 : Int) ≤ ((a.length / 2 : Nat) : Int) - ((a.length / 8 : Nat) : Int) ∧
        ((a.length / 2 : Nat) : Int) - ((a.length / 8 : Nat) : Int) < a.length := by omega
    have c5 : (0 : Int) ≤ ((a.length / 2 : Nat) : Int) + ((a.length / 8 : Nat) : Int) ∧
        ((a.length / 2 : Nat) : Int) + ((a.length / 8 : Nat) : Int) < a.length := by omega
    have c6 : (0 : Int) ≤ (a.length : Int) - 1 ∧ (a.length : Int) - 1 < a.length := by omega
    have c7 : (0 : Int) ≤ (a.length : Int) - 1 - ((a.length / 8 : Nat) : Int) ∧
        (a.length : Int) - 1 - ((a.length / 8 : Nat) : Int) < a.length := by omega
    have c8 : (0 : Int) ≤ (a.length : Int) - 1 - 2 * ((a.length / 8 : Nat) : Int) ∧
        (a.length : Int) - 1 - 2 * ((a.length / 8 : Nat) : Int) < a.length := by omega
    rw [index_ok_int a _ c0.1 c0.2, index_ok_int a _ c1.1 c1.2, index_ok_int a _ c2.1 c2.2,
      index_ok_int a _ c3.1 c3.2, index_ok_int a _ c4.1 c4.2, index_ok_int a _ c5.1 c5.2,
      index_ok_int a _ c6.1 c6.2, index_ok_int a _ c7.1 c7.2, index_ok_int a _ c8.1 c8.2]
    simp only [Res.ok_bind, Res.pure_eq]
    refine ⟨_, rfl, ?_⟩
    apply median3_cases (fun v => ∃ k, k < a.length ∧ v = byteAt (a.getD k []) d)
    · apply median3_cases (fun v => ∃ k, k < a.length ∧ v = byteAt (a.getD k []) d)
      · exact hP _ c0.1 c0.2
      · exact hP _ c1.1 c1.2
      · exact hP _ c2.1 c2.2
    · apply median3_cases (fun v => ∃ k, k < a.length ∧ v = byteAt (a.getD k []) d)
      · exact hP _ c3.1 c3.2
      · exact hP _ c4.1 c4.2
      · exact hP _ c5.1 c5.2
    · apply median3_cases (fun v => ∃ k, k < a.length ∧ v = byteAt (a.getD k []) d)
      · exact hP _ c6.1 c6.2
      · exact hP _ c7.1 c7.2
      · exact hP _ c8.1 c8.2
  · simp only [hn, if_false]
    have c0 : (0 : Int) ≤ 0 ∧ (0 : Int) < a.length := by omega
    have c3 : (0 : Int) ≤ ((a.length / 2 : Nat) : Int) ∧
        ((a.length / 2 : Nat) : Int) < a.length := by omega
    have c6 : (0 : Int) ≤ (a.length : Int) - 1 ∧ (a.length : Int) - 1 < a.length := by omega
    rw [index_ok_int a _ c0.1 c0.2, index_ok_int a _ c3.1 c3.2, index_ok_int a _ c6.1 c6.2]
    simp only [Res.ok_bind, Res.pure_eq]
    refine ⟨_, rfl, ?_⟩
    apply median3_cases (fun v => ∃ k, k < a.length ∧ v = byteAt (a.getD k []) d)
    · exact hP _ c0.1 c0.2
    · exact hP _ c3.1 c3.2
    · exact hP _ c6.1 c6.2

/-! ## The measure of a window -/

theorem mu_append (a b : List GoString) (d : Nat) : mu (a ++ b) d = mu a d + mu b d := by
  simp [mu]

theorem mu_perm {a b : List GoString} (h : a.Perm b) (d : Nat) : mu a d = mu b d := by
  unfold mu
  exact (h.map _).sum_eq

theorem length_le_mu : ∀ (a : List GoString) (d : Nat), a.length ≤ mu a d
  | [], _ => by simp [mu]
  | x :: a, d => by
    have := length_le_mu a d
    simp only [mu, List.map_cons, List.sum_cons, List.length_cons] at this ⊢
    omega

theorem mu_succ : ∀ (a : List GoString) (d : Nat), (∀ s ∈ a, d < s.length) →
    mu a (d + 1) + a.length ≤ mu a d
  | [], _, _ => by simp [mu]
  | x :: a, d, h => by
    have ih := mu_succ a d (fun s hs => h s (List.mem_cons_of_mem _ hs))
    have hx := h x (List.mem_cons_self _ _)
    simp only [mu, List.map_cons, List.sum_cons, List.length_cons] at ih ⊢
    omega

/-! ## The windows of `qsort3` -/

theorem sorted_concat (l e g : List GoString) (hl : List.Sorted strLe l)
    (he : List.Sorted strLe e) (hg : List.Sorted strLe g)
    (hle : ∀ s ∈ l, ∀ t ∈ e, strLe s t) (hlg : ∀ s ∈ l, ∀ t ∈ g, strLe s t)
    (heg : ∀ s ∈ e, ∀ t ∈ g, strLe s t) : List.Sorted strLe (l ++ e ++ g) := by
  unfold List.Sorted at *
  rw [List.pairwise_append, List.pairwise_append]
  refine ⟨⟨hl, he, hle⟩, hg, ?_⟩
  intro s hs t ht
  rcases List.mem_append.mp hs with h | h
  · exact hlg s h t ht
  · exact heg s h t ht

theorem regions_of_partInv (a a2 : List GoString) (d : Nat) (p : Int) (eq gt : Nat)
    (hperm : a2.Perm a) (h : PartInv a2 d p eq gt gt) : Regions a a2 d p eq gt := by
  obtain ⟨h1, _, h3, hlt, heq, hgt⟩ := h
  refine ⟨hperm, h1, h3, ?_, ?_, ?_, ?_, ?_, ?_, ?_⟩
  · have e1 := slice_split a2 eq gt h1
    have e2 : a2.take eq = slice a2 0 eq := by
      simp [slice, List.take_take, Nat.min_eq_left h1]
    have e3 : a2.drop gt = slice a2 gt a2.length := by simp [slice]
    rw [e2, e3] at e1
    exact e1
  · rw [slice_length a2 0 eq (by omega)]; omega
  · rw [slice_length a2 eq gt h3]
  · rw [slice_length a2 gt a2.length (le_refl _)]
  · intro s hs
    obtain ⟨k, _, hk2, _, hk4⟩ := mem_slice hs
    rw [← hk4]; exact hlt k hk2
  · intro s hs
    obtain ⟨k, hk1, hk2, _, hk4⟩ := mem_slice hs
    rw [← hk4]; exact heq k hk1 hk2
  · intro s hs
    obtain ⟨k, hk1, _, hk3, hk4⟩ := mem_slice hs
    rw [← hk4]; exact hgt k hk1 hk3

namespace Regions

variable {a a2 : List GoString} {d : Nat} {p : Int} {eq gt : Nat}

theorem memL (R : Regions a a2 d p eq gt) {s : GoString} (h : s ∈ slice a2 0 eq) : s ∈ a := by
  apply R.perm.subset
  rw [R.split]
  exact List.mem_append_left _ (List.mem_append_left _ h)

theorem memE (R : Regions a a2 d p eq gt) {s : GoString} (h : s ∈ slice a2 eq gt) : s ∈ a := by
  apply R.perm.subset
  rw [R.split]
  exact List.mem_append_left _ (List.mem_append_right _ h)

theorem memG (R : Regions a a2 d p eq gt) {s : GoString} (h : s ∈ slice a2 gt a2.length) :
    s ∈ a := by
  apply R.perm.subset
  rw [R.split]
  exact List.mem_append_right _ h

theorem length_eq (R : Regions a a2 d p eq gt) : a2.length = a.length := R.perm.length_eq

theorem mu_eq (R : Regions a a2 d p eq gt) :
    mu (slice a2 0 eq) d + mu (slice a2 eq gt) d + mu (slice a2 gt a2.length) d = mu a d := by
  rw [← mu_perm R.perm d, ← mu_append, ← mu_append, ← R.split]

/-- The pivot is the byte of some string of the window, so the middle region
is not empty. -/
theorem eq_lt_gt (R : Regions a a2 d p eq gt)
    (hp : ∃ k, k < a.length ∧ p = byteAt (a.getD k []) d) : eq < gt := by
  obtain ⟨k, hk, hpk⟩ := hp
  have hmem : a.getD k [] ∈ a2 := by
    apply R.perm.symm.subset
    rw [List.getD_eq_getElem?_getD, List.getElem?_eq_getElem hk]
    exact List.getElem_mem _
  rw [R.split] at hmem
  rcases List.mem_append.mp hmem with h | h
  · rcases List.mem_append.mp h with h | h
    · have := R.lt _ h; omega
    · have : 0 < (slice a2 eq gt).length := List.length_pos_of_mem h
      rw [R.lenE] at this; omega
  · have := R.gtv _ h; omega

theorem agreeL (R : Regions a a2 d p eq gt) (h : AgreeBelow d a) :
    AgreeBelow d (slice a2 0 eq) :=
  fun s hs t ht => h s (R.memL hs) t (R.memL ht)

theorem agreeG (R : Regions a a2 d p eq gt) (h : AgreeBelow d a) :
    AgreeBelow d (slice a2 gt a2.length) :=
  fun s hs t ht => h s (R.memG hs) t (R.memG ht)

theorem agreeE (R : Regions a a2 d p eq gt) (h : AgreeBelow d a) :
    AgreeBelow (d + 1) (slice a2 eq gt) := by
  intro s hs t ht i hi
  by_cases hid : i = d
  · rw [hid, R.eqv s hs, R.eqv t ht]
  · exact h s (R.memE hs) t (R.memE ht) i (by omega)

theorem longL (R : Regions a a2 d p eq gt) (h : LongEnough d a) :
    LongEnough d (slice a2 0 eq) :=
  fun s hs => h s (R.memL hs)

theorem longG (R : Regions a a2 d p eq gt) (h : LongEnough d a) :
    LongEnough d (slice a2 gt a2.length) :=
  fun s hs => h s (R.memG hs)

theorem longE (R : Regions a a2 d p eq gt) (hp : 0 ≤ p) :
    ∀ s ∈ slice a2 eq gt, d < s.length := by
  intro s hs
  apply lt_length_of_byteAt
  rw [R.eqv s hs]; exact hp

/-- With the sentinel as pivot, the strings of the middle region are equal. -/
theorem sortedE (R : Regions a a2 d p eq gt) (hp : p < 0) (h : AgreeBelow d a) :
    List.Sorted strLe (slice a2 eq gt) := by
  apply List.pairwise_of_forall_mem_list
  intro s hs t ht
  have e1 : byteAt s d = -1 := by
    have := byteAt_ge s d
    have := R.eqv s hs
    omega
  have e2 : byteAt t d = -1 := by
    have := byteAt_ge t d
    have := R.eqv t ht
    omega
  rw [eq_of_byteAt_end d s t (h s (R.memE hs) t (R.memE ht)) e1 e2]
  exact strLe_refl t

/-- The sorted regions, put side by side, are the sorted window. -/
theorem combine (R : Regions a a2 d p eq gt) (l e g : List GoString)
    (hl : l.Perm (slice a2 0 eq)) (he : e.Perm (slice a2 eq gt))
    (hg : g.Perm (slice a2 gt a2.length))
    (sl : AgreeBelow d a → List.Sorted strLe l) (se : AgreeBelow d a → List.Sorted strLe e)
    (sg : AgreeBelow d a → List.Sorted strLe g) :
    (l ++ e ++ g).Perm a ∧ (AgreeBelow d a → List.Sorted strLe (l ++ e ++ g)) := by
  constructor
  · refine List.Perm.trans ?_ R.perm
    rw [R.split]
    exact (hl.append he).append hg
  · intro hag
    have key : ∀ s ∈ a, ∀ t ∈ a, byteAt s d < byteAt t d → strLe s t :=
      fun s hs t ht hlt => strLe_of_strLt (strLt_of_byteAt_lt d s t (hag s hs t ht) hlt)
    refine sorted_concat l e g (sl hag) (se hag) (sg hag) ?_ ?_ ?_
    · intro s hs t ht
      have h1 := R.lt s (hl.subset hs)
      have h2 := R.eqv t (he.subset ht)
      exact key s (R.memL (hl.subset hs)) t (R.memE (he.subset ht)) (by omega)
    · intro s hs t ht
      have h1 := R.lt s (hl.subset hs)
      have h2 := R.gtv t (hg.subset ht)
      exact key s (R.memL (hl.subset hs)) t (R.memG (hg.subset ht)) (by omega)
    · intro s hs t ht
      have h1 := R.eqv s (he.subset hs)
      have h2 := R.gtv t (hg.subset ht)
      exact key s (R.memE (he.subset hs)) t (R.memG (hg.subset ht)) (by omega)

end Regions

/-! ## The calls of `qsort3` -/

theorem lift_call {a sub : List GoString} {d d2 md lvl : Nat} {c : Call}
    (h : CallOK sub d2 md (lvl + 1) c) (hlen : 2 * sub.length ≤ a.length) (h2 : 2 ≤ a.length)
    (hag : AgreeBelow d a → AgreeBelow d2 sub) (hlong : LongEnough d a → LongEnough d2 sub) :
    LoopCallOK a d md lvl c := by
  obtain ⟨h1, h3, h4, h5, h6, h7⟩ := h
  have e : c.level - lvl = (c.level - (lvl + 1)) + 1 := by omega
  refine ⟨by omega, by omega, ?_, ?_, fun x => h6 (hag x), fun x => h7 (hlong x)⟩
  · rw [e, pow_succ]
    calc c.win.length * (2 ^ (c.level - (lvl + 1)) * 2)
        = 2 * (c.win.length * 2 ^ (c.level - (lvl + 1))) := by ring
      _ ≤ 2 * sub.length := by omega
      _ ≤ a.length := hlen
  · rw [e, pow_succ]
    by_cases hl : lvl + 1 < c.level
    · have := h5 hl
      omega
    · have e0 : c.level - (lvl + 1) = 0 := by omega
      rw [e0]; simpa using h2

theorem lift_loop {a sub : List GoString} {d d2 md lvl : Nat} {c : Call}
    (h : LoopCallOK sub d2 md lvl c) (hlen : sub.length ≤ a.length)
    (hag : AgreeBelow d a → AgreeBelow d2 sub) (hlong : LongEnough d a → LongEnough d2 sub) :
    LoopCallOK a d md lvl c := by
  obtain ⟨h1, h3, h4, h5, h6, h7⟩ := h
  exact ⟨h1, h3, by omega, by omega, fun x => h6 (hag x), fun x => h7 (hlong x)⟩

theorem lift_entry {a : List GoString} {d md lvl : Nat} {log : List Call} (hmd : md ≠ 0)
    (h : ∀ c ∈ log, LoopCallOK a d (md - 1) lvl c) :
    ∀ c ∈ (⟨a, d, md, lvl⟩ : Call) :: log, CallOK a d md lvl c := by
  intro c hc
  rcases List.mem_cons.mp hc with e | hc
  · subst e
    exact ⟨le_refl _, rfl, by simp, fun h => absurd h (lt_irrefl _), id, id⟩
  · obtain ⟨h1, h3, h4, h5, h6, h7⟩ := h c hc
    exact ⟨by omega, by omega, h4, fun _ => h5, h6, h7⟩

/-! ## The recursive driver -/

/-- Total correctness of `qsort3` and of its loop, with the facts about the
logged calls, by induction on the fuel. -/
theorem qsort3_main : ∀ fuel : Nat,
    (∀ a d md lvl, 2 * mu a d + 4 ≤ fuel →
      ∃ out log, qsort3 fuel a d md lvl = .ok (out, log) ∧ Sorts a d out ∧
        ∀ c ∈ log, CallOK a d md lvl c) ∧
    (∀ a d md lvl, 2 * mu a d + 3 ≤ fuel →
      ∃ out log, qsort3Loop fuel a d md lvl = .ok (out, log) ∧ Sorts a d out ∧
        ∀ c ∈ log, LoopCallOK a d md lvl c)
  | 0 => ⟨fun _ _ _ _ h => by omega, fun _ _ _ _ h => by omega⟩
  | fuel + 1 => by
    obtain ⟨IHq, IHl⟩ := qsort3_main fuel
    constructor
    · intro a d md lvl hf
      rw [qsort3]
      by_cases hmd : md = 0
      · simp only [hmd, if_true]
        have hlm := length_le_mu a d
        obtain ⟨r, hrun, hperm, _, hsorted, _, _⟩ :=
          heapSort_spec fuel a 0 a.length (Nat.zero_le _) (le_refl _) (by omega)
        have hrun2 : heapSort fuel a 0 (a.length : Int) = Res.ok r := by simpa using hrun
        rw [hrun2]
        simp only [Res.ok_bind, Res.pure_eq]
        refine ⟨_, _, rfl, ⟨hperm, fun _ => ?_⟩, ?_⟩
        · rw [← hperm.length_eq, slice_full] at hsorted
          exact hsorted
        · intro c hc
          rw [List.mem_singleton] at hc
          subst hc
          exact ⟨le_refl _, rfl, by simp, fun h => absurd h (lt_irrefl _), id, id⟩
      · simp only [hmd, if_false]
        obtain ⟨out, log, hrun, hs, hlog⟩ := IHl a d (md - 1) lvl (by omega)
        rw [hrun]
        simp only [Res.ok_bind, Res.pure_eq]
        exact ⟨_, _, rfl, hs, lift_entry hmd hlog⟩
    · intro a d md lvl hf
      rw [qsort3Loop]
      by_cases hlen : a.length > 1
      · simp only [hlen, if_true]
        obtain ⟨p, hpiv, hpk⟩ := pivot_spec a d (by omega)
        rw [hpiv]
        simp only [Res.ok_bind]
        have hlm := length_le_mu a d
        obtain ⟨a2, eq, gt, hpart, hperm2, hinv2⟩ :=
          partition_spec fuel a d p 0 0 a.length
            ⟨le_refl _, Nat.zero_le _, le_refl _, fun k hk => by omega,
              fun k hk1 hk2 => by omega, fun k hk1 hk2 => by omega⟩ (by omega)
        rw [hpart]
        simp only [Res.ok_bind]
        have R := regions_of_partInv a a2 d p eq gt hperm2 hinv2
        have hmu := R.mu_eq
        have hne := R.eq_lt_gt hpk
        have hl2 := R.length_eq
        have hmL := length_le_mu (slice a2 0 eq) d
        have hmE := length_le_mu (slice a2 eq gt) d
        have hmG := length_le_mu (slice a2 gt a2.length) d
        have hLl := R.lenL
        have hEl := R.lenE
        have hGl := R.lenG
        have hle1 := R.le1
        have hle2 := R.le2
        have hsL : subslice a2 0 eq = .ok (slice a2 0 eq) := by
          simp [subslice]; omega
        have hsE : subslice a2 eq gt = .ok (slice a2 eq gt) := by
          simp [subslice, hle1, hle2]
        have hsG : subslice a2 gt a2.length = .ok (slice a2 gt a2.length) := by
          simp [subslice, hle2]
        by_cases hp : p < 0
        · simp only [hp, if_true]
          by_cases hc : (eq : Int) < (a2.length : Int) - (gt : Int)
          · simp only [hc, if_true, hsL, hsE, hsG, Res.ok_bind]
            obtain ⟨l, log1, hrun1, ⟨hp1, hs1⟩, hlog1⟩ :=
              IHq (slice a2 0 eq) d md (lvl + 1) (by omega)
            obtain ⟨g, log2, hrun2, ⟨hp2, hs2⟩, hlog2⟩ :=
              IHl (slice a2 gt a2.length) d md lvl (by omega)
            rw [hrun1]; simp only [Res.ok_bind]
            rw [hrun2]; simp only [Res.ok_bind, Res.pure_eq]
            refine ⟨_, _, rfl, R.combine l _ g hp1 (List.Perm.refl _) hp2
              (fun h => hs1 (R.agreeL h)) (fun h => R.sortedE hp h)
              (fun h => hs2 (R.agreeG h)), ?_⟩
            intro c hc
            rcases List.mem_append.mp hc with h | h
            · exact lift_call (hlog1 c h) (by omega) (by omega) R.agreeL R.longL
            · exact lift_loop (hlog2 c h) (by omega) R.agreeG R.longG
          · simp only [hc, if_false, hsL, hsE, hsG, Res.ok_bind]
            obtain ⟨g, log1, hrun1, ⟨hp1, hs1⟩, hlog1⟩ :=
              IHq (slice a2 gt a2.length) d md (lvl + 1) (by omega)
            obtain ⟨l, log2, hrun2, ⟨hp2, hs2⟩, hlog2⟩ :=
              IHl (slice a2 0 eq) d md lvl (by omega)
            rw [hrun1]; simp only [Res.ok_bind]
            rw [hrun2]; simp only [Res.ok_bind, Res.pure_eq]
            refine ⟨_, _, rfl, R.combine l _ g hp2 (List.Perm.refl _) hp1
              (fun h => hs2 (R.agreeL h)) (fun h => R.sortedE hp h)
              (fun h => hs1 (R.agreeG h)), ?_⟩
            intro c hc
            rcases List.mem_append.mp hc with h | h
            · exact lift_call (hlog1 c h) (by omega) (by omega) R.agreeG R.longG
            · exact lift_loop (hlog2 c h) (by omega) R.agreeL R.longL
        · simp only [hp, if_false]
          have hmx := max3_ge (eq : Int) ((gt : Int) - (eq : Int))
            ((a2.length : Int) - (gt : Int))
          have hmm := max3_mem (eq : Int) ((gt : Int) - (eq : Int))
            ((a2.length : Int) - (gt : Int))
          have hlongE := R.longE (by omega)
          have hmuE := mu_succ (slice a2 eq gt) d hlongE
          have hLE : LongEnough d a → LongEnough (d + 1) (slice a2 eq gt) :=
            fun _ s hs => hlongE s hs
          by_cases hc1 : (eq : Int) = max3 (eq : Int) ((gt : Int) - (eq : Int))
              ((a2.length : Int) - (gt : Int))
          · rw [if_pos hc1]
            simp only [hsL, hsE, hsG, Res.ok_bind]
            obtain ⟨e, log1, hrun1, ⟨hp1, hs1⟩, hlog1⟩ :=
              IHq (slice a2 eq gt) (d + 1) md (lvl + 1) (by omega)
            obtain ⟨g, log2, hrun2, ⟨hp2, hs2⟩, hlog2⟩ :=
              IHq (slice a2 gt a2.length) d md (lvl + 1) (by omega)
            obtain ⟨l, log3, hrun3, ⟨hp3, hs3⟩, hlog3⟩ :=
              IHl (slice a2 0 eq) d md lvl (by omega)
            rw [hrun1]; simp only [Res.ok_bind]
            rw [hrun2]; simp only [Res.ok_bind]
            rw [hrun3]; simp only [Res.ok_bind, Res.pure_eq]
            refine ⟨_, _, rfl, R.combine l e g hp3 hp1 hp2
              (fun h => hs3 (R.agreeL h)) (fun h => hs1 (R.agreeE h))
              (fun h => hs2 (R.agreeG h)), ?_⟩
            intro c hc
            rcases List.mem_append.mp hc with h | h
            · rcases List.mem_append.mp h with h | h
              · exact lift_call (hlog1 c h) (by omega) (by omega) R.agreeE hLE
              · exact lift_call (hlog2 c h) (by omega) (by omega) R.agreeG R.longG
            · exact lift_loop (hlog3 c h) (by omega) R.agreeL R.longL
          · by_cases hc2 : (gt : Int) - (eq : Int) = max3 (eq : Int) ((gt : Int) - (eq : Int))
                ((a2.length : Int) - (gt : Int))
            · rw [if_neg hc1, if_pos hc2]
              simp only [hsL, hsE, hsG, Res.ok_bind]
              obtain ⟨l, log1, hrun1, ⟨hp1, hs1⟩, hlog1⟩ :=
                IHq (slice a2 0 eq) d md (lvl + 1) (by omega)
              obtain ⟨g, log2, hrun2, ⟨hp2, hs2⟩, hlog2⟩ :=
                IHq (slice a2 gt a2.length) d md (lvl + 1) (by omega)
              obtain ⟨e, log3, hrun3, ⟨hp3, hs3⟩, hlog3⟩ :=
                IHl (slice a2 eq gt) (d + 1) md lvl (by omega)
              rw [hrun1]; simp only [Res.ok_bind]
              rw [hrun2]; simp only [Res.ok_bind]
              rw [hrun3]; simp only [Res.ok_bind, Res.pure_eq]
              refine ⟨_, _, rfl, R.combine l e g hp1 hp3 hp2
                (fun h => hs1 (R.agreeL h)) (fun h => hs3 (R.agreeE h))
                (fun h => hs2 (R.agreeG h)), ?_⟩
              intro c hc
              rcases List.mem_append.mp hc with h | h
              · rcases List.mem_append.mp h with h | h
                · exact lift_call (hlog1 c h) (by omega) (by omega) R.agreeL R.longL
                · exact lift_call (hlog2 c h) (by omega) (by omega) R.agreeG R.longG
              · exact lift_loop (hlog3 c h) (by omega) R.agreeE hLE
            · rw [if_neg hc1, if_neg hc2]
              simp only [hsL, hsE, hsG, Res.ok_bind]
              obtain ⟨l, log1, hrun1, ⟨hp1, hs1⟩, hlog1⟩ :=
                IHq (slice a2 0 eq) d md (lvl + 1) (by omega)
              obtain ⟨e, log2, hrun2, ⟨hp2, hs2⟩, hlog2⟩ :=
                IHq (slice a2 eq gt) (d + 1) md (lvl + 1) (by omega)
              obtain ⟨g, log3, hrun3, ⟨hp3, hs3⟩, hlog3⟩ :=
                IHl (slice a2 gt a2.length) d md lvl (by omega)
              rw [hrun1]; simp only [Res.ok_bind]
              rw [hrun2]; simp only [Res.ok_bind]
              rw [hrun3]; simp only [Res.ok_bind, Res.pure_eq]
              refine ⟨_, _, rfl, R.combine l e g hp1 hp2 hp3
                (fun h => hs1 (R.agreeL h)) (fun h => hs2 (R.agreeE h))
                (fun h => hs3 (R.agreeG h)), ?_⟩
              intro c hc
              rcases List.mem_append.mp hc with h | h
              · rcases List.mem_append.mp h with h | h
                · exact lift_call (hlog1 c h) (by omega) (by omega) R.agreeL R.longL
                · exact lift_call (hlog2 c h) (by omega) (by omega) R.agreeE hLE
              · exact lift_loop (hlog3 c h) (by omega) R.agreeG R.longG
      · simp only [hlen, if_false, Res.pure_eq]
        refine ⟨_, _, rfl, ⟨List.Perm.refl _, fun _ => ?_⟩, fun c hc => by simp at hc⟩
        match a, hlen with
        | [], _ => exact List.sorted_nil
        | [x], _ => exact List.sorted_singleton x
        | _ :: _ :: _, h => simp at h

/-! ## The depth budget -/

theorem bitLen_half (i : Nat) (h : 0 < i) : bitLen i = bitLen (i / 2) + 1 := by
  unfold bitLen
  by_cases h1 : i = 1
  · subst h1; simp
  · have h2 : 2 ≤ i := by omega
    have h3 : i / 2 ≠ 0 := by omega
    have h4 : i ≠ 0 := by omega
    simp only [h3, h4, if_false]
    rw [Nat.log_of_one_lt_of_le (by omega) h2]

theorem lt_two_pow_bitLen (n : Nat) : n < 2 ^ bitLen n := by
  unfold bitLen
  by_cases h : n = 0
  · simp [h]
  · simp only [h, if_false]
    exact Nat.lt_pow_succ_log_self (by omega) n

theorem bitLen_le (n : Nat) : bitLen n ≤ n := by
  unfold bitLen
  by_cases h : n = 0
  · simp [h]
  · simp only [h, if_false]
    have := Nat.log_lt_self 2 h
    omega

theorem maxDepthLoop_spec : ∀ (fuel i depth : Nat), bitLen i < fuel →
    maxDepthLoop fuel i depth = .ok (depth + bitLen i)
  | 0, _, _, h => by omega
  | fuel + 1, i, depth, h => by
    rw [maxDepthLoop]
    by_cases hi : i > 0
    · have e := bitLen_half i hi
      simp only [hi, if_true, Nat.shiftRight_eq_div_pow, pow_one]
      rw [maxDepthLoop_spec fuel (i / 2) (depth + 1) (by omega), e]
      congr 1
      omega
    · have e : i = 0 := by omega
      subst e
      simp [bitLen]

theorem maxDepth_spec (fuel n : Nat) (h : bitLen n < fuel) :
    maxDepth fuel n = .ok (bitLen n * 2) := by
  unfold maxDepth
  rw [maxDepthLoop_spec fuel n 0 h]
  simp

/-! ## `Sort` -/

theorem agreeBelow_zero (a : List GoString) : AgreeBelow 0 a :=
  fun _ _ _ _ i hi => absurd hi (Nat.not_lt_zero i)

theorem sort_spec (a : List GoString) (fuel : Nat) (h : sortFuel a ≤ fuel) :
    ∃ out log, sort fuel a = .ok (out, log) ∧ out.Perm a ∧ List.Sorted strLe out ∧
      ∀ c ∈ log, CallOK a 0 (bitLen a.length * 2) 0 c := by
  unfold sortFuel at h
  have h1 := length_le_mu a 0
  have h2 := bitLen_le a.length
  unfold sort
  rw [maxDepth_spec fuel a.length (by omega)]
  simp only [Res.ok_bind]
  obtain ⟨out, log, hrun, ⟨hperm, hsorted⟩, hlog⟩ :=
    (qsort3_main fuel).1 a 0 (bitLen a.length * 2) 0 h
  exact ⟨out, log, hrun, hperm, hsorted (agreeBelow_zero a), hlog⟩

/-! ## More fuel changes nothing

A run that did not stop for lack of fuel gives the same outcome with more fuel. -/

theorem Ext.rfl {α : Type} (r : Res α) : Ext r r := fun _ => Eq.refl r

theorem Ext.oof {α : Type} (r : Res α) : Ext (.error .outOfFuel) r := fun h => absurd (Eq.refl _) h

theorem Ext.bind {α β : Type} {m m2 : Res α} {k k2 : α → Res β} (hm : Ext m m2)
    (hk : ∀ v, Ext (k v) (k2 v)) : Ext (m >>= k) (m2 >>= k2) := by
  intro h
  cases m with
  | ok v =>
    rw [hm (by simp)]
    simp only [Res.ok_bind] at h ⊢
    exact hk v h
  | error e =>
    have he : e ≠ .outOfFuel := by
      intro he; subst he; exact h (Eq.refl _)
    rw [hm (by simpa using he)]
    rfl

theorem Ext.ite {α : Type} (c : Prop) [Decidable c] {a b a2 b2 : Res α} (ha : Ext a a2)
    (hb : Ext b b2) : Ext (if c then a else b) (if c then a2 else b2) := by
  by_cases h : c
  · simpa [h] using ha
  · simpa [h] using hb

theorem Ext.le {α : Type} (f : Nat → Res α) (h : ∀ n, Ext (f n) (f (n + 1))) :
    ∀ m n, n ≤ m → Ext (f n) (f m) := by
  intro m
  induction m with
  | zero =>
    intro n hn
    have : n = 0 := by omega
    subst this; exact Ext.rfl _
  | succ m ih =>
    intro n hn
    by_cases e : n = m + 1
    · subst e; exact Ext.rfl _
    · intro hne
      have h1 := ih n (by omega) hne
      have h2 := h m (by rw [h1]; exact hne)
      rw [h2, h1]

theorem partition_ext : ∀ (fuel : Nat) (a : List GoString) (d : Nat) (p : Int) (eq x gt : Nat),
    Ext (partition fuel a d p eq x gt) (partition (fuel + 1) a d p eq x gt)
  | 0, _, _, _, _, _, _ => Ext.oof _
  | fuel + 1, a, d, p, eq, x, gt => by
    conv => lhs; rw [partition]
    conv => rhs; rw [partition]
    apply Ext.ite
    · apply Ext.bind (Ext.rfl _)
      intro s
      dsimp only
      apply Ext.ite
      · apply Ext.bind (Ext.rfl _)
        intro a2
        exact partition_ext fuel a2 d p (eq + 1) (x + 1) gt
      · apply Ext.ite
        · exact partition_ext fuel a d p eq (x + 1) gt
        · apply Ext.bind (Ext.rfl _)
          intro a2
          exact partition_ext fuel a2 d p eq x (gt - 1)
    · exact Ext.rfl _

theorem siftDown_ext : ∀ (fuel : Nat) (data : List GoString) (root hi first : Int),
    Ext (siftDown fuel data root hi first) (siftDown (fuel + 1) data root hi first)
  | 0, _, _, _, _ => Ext.oof _
  | fuel + 1, data, root, hi, first => by
    conv => lhs; rw [siftDown]
    conv => rhs; rw [siftDown]
    apply Ext.ite
    · exact Ext.rfl _
    · apply Ext.bind (Ext.rfl _)
      intro child
      apply Ext.bind (Ext.rfl _)
      intro r
      apply Ext.bind (Ext.rfl _)
      intro c
      apply Ext.ite
      · exact Ext.rfl _
      · apply Ext.bind (Ext.rfl _)
        intro data2
        exact siftDown_ext fuel data2 child hi first

theorem heapBuild_ext : ∀ (fuel : Nat) (data : List GoString) (i hi first : Int),
    Ext (heapBuild fuel data i hi first) (heapBuild (fuel + 1) data i hi first)
  | 0, _, _, _, _ => Ext.oof _
  | fuel + 1, data, i, hi, first => by
    conv => lhs; rw [heapBuild]
    conv => rhs; rw [heapBuild]
    apply Ext.ite
    · apply Ext.bind (siftDown_ext fuel data i hi first)
      intro data2
      exact heapBuild_ext fuel data2 (i - 1) hi first
    · exact Ext.rfl _

theorem heapPop_ext : ∀ (fuel : Nat) (data : List GoString) (i lo first : Int),
    Ext (heapPop fuel data i lo first) (heapPop (fuel + 1) data i lo first)
  | 0, _, _, _, _ => Ext.oof _
  | fuel + 1, data, i, lo, first => by
    conv => lhs; rw [heapPop]
    conv => rhs; rw [heapPop]
    apply Ext.ite
    · apply Ext.bind (Ext.rfl _)
      intro data2
      apply Ext.bind (siftDown_ext fuel data2 lo i first)
      intro data3
      exact heapPop_ext fuel data3 (i - 1) lo first
    · exact Ext.rfl _

theorem heapSort_ext (fuel : Nat) (data : List GoString) (a b : Int) :
    Ext (heapSort fuel data a b) (heapSort (fuel + 1) data a b) := by
  unfold heapSort
  apply Ext.bind (heapBuild_ext fuel data _ _ _)
  intro data2
  exact heapPop_ext fuel data2 _ _ _

theorem maxDepthLoop_ext : ∀ (fuel i depth : Nat),
    Ext (maxDepthLoop fuel i depth) (maxDepthLoop (fuel + 1) i depth)
  | 0, _, _ => Ext.oof _
  | fuel + 1, i, depth => by
    conv => lhs; rw [maxDepthLoop]
    conv => rhs; rw [maxDepthLoop]
    apply Ext.ite
    · exact maxDepthLoop_ext fuel (i >>> 1) (depth + 1)
    · exact Ext.rfl _

theorem maxDepth_ext (fuel n : Nat) : Ext (maxDepth fuel n) (maxDepth (fuel + 1) n) := by
  unfold maxDepth
  exact Ext.bind (maxDepthLoop_ext fuel n 0) (fun _ => Ext.rfl _)

theorem qsort3_ext : ∀ fuel : Nat,
    (∀ a d md lvl, Ext (qsort3 fuel a d md lvl) (qsort3 (fuel + 1) a d md lvl)) ∧
    (∀ a d md lvl, Ext (qsort3Loop fuel a d md lvl) (qsort3Loop (fuel + 1) a d md lvl))
  | 0 => ⟨fun _ _ _ _ => Ext.oof _, fun _ _ _ _ => Ext.oof _⟩
  | fuel + 1 => by
    obtain ⟨IHq, IHl⟩ := qsort3_ext fuel
    constructor
    · intro a d md lvl
      conv => lhs; rw [qsort3]
      conv => rhs; rw [qsort3]
      apply Ext.ite
      · exact Ext.bind (heapSort_ext fuel a _ _) (fun _ => Ext.rfl _)
      · exact Ext.bind (IHl a d (md - 1) lvl) (fun _ => Ext.rfl _)
    · intro a d md lvl
      conv => lhs; rw [qsort3Loop]
      conv => rhs; rw [qsort3Loop]
      apply Ext.ite
      · apply Ext.bind (Ext.rfl _)
        intro p
        apply Ext.bind (partition_ext fuel a d p 0 0 a.length)
        rintro ⟨a2, eq, gt⟩
        dsimp only
        apply Ext.ite
        · apply Ext.ite
          · apply Ext.bind (Ext.rfl _)
            intro w1
            apply Ext.bind (IHq _ _ _ _)
            intro v1
            apply Ext.bind (Ext.rfl _)
            intro w2
            apply Ext.bind (IHl _ _ _ _)
            intro v2
            exact Ext.rfl _
          · apply Ext.bind (Ext.rfl _)
            intro w1
            apply Ext.bind (IHq _ _ _ _)
            intro v1
            apply Ext.bind (Ext.rfl _)
            intro w2
            apply Ext.bind (IHl _ _ _ _)
            intro v2
            exact Ext.rfl _
        · apply Ext.ite
          · apply Ext.bind (Ext.rfl _)
            intro w1
            apply Ext.bind (IHq _ _ _ _)
            intro v1
            apply Ext.bind (Ext.rfl _)
            intro w2
            apply Ext.bind (IHq _ _ _ _)
            intro v2
            apply Ext.bind (Ext.rfl _)
            intro w3
            apply Ext.bind (IHl _ _ _ _)
            intro v3
            exact Ext.rfl _
          · apply Ext.ite
            · apply Ext.bind (Ext.rfl _)
              intro w1
              apply Ext.bind (IHq _ _ _ _)
              intro v1
              apply Ext.bind (Ext.rfl _)
              intro w2
              apply Ext.bind (IHq _ _ _ _)
              intro v2
              apply Ext.bind (Ext.rfl _)
              intro w3
              apply Ext.bind (IHl _ _ _ _)
              intro v3
              exact Ext.rfl _
            · apply Ext.bind (Ext.rfl _)
              intro w1
              apply Ext.bind (IHq _ _ _ _)
              intro v1
              apply Ext.bind (Ext.rfl _)
              intro w2
              apply Ext.bind (IHq _ _ _ _)
              intro v2
              apply Ext.bind (Ext.rfl _)
              intro w3
              apply Ext.bind (IHl _ _ _ _)
              intro v3
              exact Ext.rfl _
      · exact Ext.rfl _

theorem sort_ext (a : List GoString) (fuel : Nat) : Ext (sort fuel a) (sort (fuel + 1) a) := by
  unfold sort
  apply Ext.bind (maxDepth_ext fuel a.length)
  intro md
  exact (qsort3_ext fuel).1 a 0 md 0

/-- A successful run of `Sort` is the run with `sortFuel a` units of fuel. -/
theorem sort_ok_unique (a : List GoString) (fuel : Nat) (r : List GoString × List Call)
    (h : sort fuel a = .ok r) : sort (max fuel (sortFuel a)) a = .ok r := by
  have key : Ext (sort fuel a) (sort (max fuel (sortFuel a)) a) :=
    Ext.le (fun n => sort n a) (fun n => sort_ext a n) (max fuel (sortFuel a)) fuel
      (le_max_left _ _)
  rw [key (by rw [h]; simp), h]

/-! ## The specification -/

/-- C1. `Sort(a)` leaves in the slice the result of a reference sort of `a`:
whatever list `b` is a permutation of `a` in non-decreasing byte-wise
lexicographic order, the final contents of the slice are `b`, element by
element; and that list is the one insertion sort produces. -/
theorem sort_eq_reference (a b : List GoString) (fuel : Nat) (hfuel : sortFuel a ≤ fuel)
    (hperm : b.Perm a) (hsorted : List.Sorted strLe b) :
    ∃ log, sort fuel a = .ok (b, log) ∧ b = List.insertionSort strLe a := by
  obtain ⟨out, log, hrun, hp, hs, _⟩ := sort_spec a fuel hfuel
  have e : out = b := List.eq_of_perm_of_sorted (hp.trans hperm.symm) hs hsorted
  subst e
  exact ⟨log, hrun, List.eq_of_perm_of_sorted
    (hp.trans (List.perm_insertionSort strLe a).symm) hs (List.sorted_insertionSort strLe a)⟩

theorem sort_eq_reference_witness :
    sortFuel [[98], [97]] ≤ 12 ∧ List.Perm [[97], [98]] ([[98], [97]] : List GoString) ∧
      List.Sorted strLe [[97], [98]] ∧
      ∃ log, sort 12 [[98], [97]] = .ok ([[97], [98]], log) ∧
        [[97], [98]] = List.insertionSort strLe [[98], [97]] :=
  ⟨by decide, by decide, by decide,
    sort_eq_reference [[98], [97]] [[97], [98]] 12 (by decide) (by decide) (by decide)⟩

/-- C2. After `Sort(a)` every adjacent pair of the slice satisfies
`a[i] <= a[i+1]` in the byte-wise lexicographic order of strings. -/
theorem sort_adjacent_le (a : List GoString) (fuel : Nat) (hfuel : sortFuel a ≤ fuel) :
    ∃ out log, sort fuel a = .ok (out, log) ∧
      ∀ i, i + 1 < out.length → strLe (out.getD i []) (out.getD (i + 1) []) := by
  obtain ⟨out, log, hrun, _, hs, _⟩ := sort_spec a fuel hfuel
  refine ⟨out, log, hrun, ?_⟩
  intro i hi
  have h1 : i < out.length := by omega
  rw [List.getD_eq_getElem?_getD, List.getD_eq_getElem?_getD, List.getElem?_eq_getElem h1,
    List.getElem?_eq_getElem hi]
  exact (List.pairwise_iff_getElem.mp hs) i (i + 1) h1 hi (by omega)

theorem sort_adjacent_le_witness :
    sortFuel [[99], [98], [97, 0]] ≤ 30 ∧
      ∃ out log, sort 30 [[99], [98], [97, 0]] = .ok (out, log) ∧
        ∀ i, i + 1 < out.length → strLe (out.getD i []) (out.getD (i + 1) []) :=
  ⟨by decide, sort_adjacent_le [[99], [98], [97, 0]] 30 (by decide)⟩

/-- C3. `Sort(a)` only permutes the slice: the multiset of its elements, its
length and the multiplicity of every string are unchanged. -/
theorem sort_multiset (a : List GoString) (fuel : Nat) (hfuel : sortFuel a ≤ fuel) :
    ∃ out log, sort fuel a = .ok (out, log) ∧
      (out : Multiset GoString) = (a : Multiset GoString) ∧ out.length = a.length ∧
      ∀ s, Multiset.count s (out : Multiset GoString) = Multiset.count s (a : Multiset GoString) := by
  obtain ⟨out, log, hrun, hp, _, _⟩ := sort_spec a fuel hfuel
  have e : (out : Multiset GoString) = (a : Multiset GoString) := Multiset.coe_eq_coe.mpr hp
  exact ⟨out, log, hrun, e, hp.length_eq, fun s => by rw [e]⟩

theorem sort_multiset_witness :
    sortFuel [[98], [97], [98]] ≤ 16 ∧
      ∃ out log, sort 16 [[98], [97], [98]] = .ok (out, log) ∧
        (out : Multiset GoString) = (([[98], [97], [98]] : List GoString) : Multiset GoString) ∧
        out.length = ([[98], [97], [98]] : List GoString).length ∧
        ∀ s, Multiset.count s (out : Multiset GoString) =
          Multiset.count s (([[98], [97], [98]] : List GoString) : Multiset GoString) :=
  ⟨by decide, sort_multiset [[98], [97], [98]] 16 (by decide)⟩

/-- C4. `Sort` raises no error: whatever the fuel, no run of `Sort(a)` stops
at an index or slice expression out of bounds; with enough fuel the run
succeeds; and on the empty slice the only call of `qsort3` has budget 0, so
the run goes straight to `heapSort` and leaves the empty slice. -/
theorem sort_no_index_error (a : List GoString) (fuel : Nat) :
    sort fuel a ≠ .error .indexOutOfRange ∧
      (sortFuel a ≤ fuel → ∃ r, sort fuel a = .ok r) ∧
      (a = [] → sortFuel a ≤ fuel → sort fuel a = .ok ([], [⟨[], 0, 0, 0⟩])) := by
  have hok : ∀ f, sortFuel a ≤ f → ∃ r, sort f a = .ok r := by
    intro f hf
    obtain ⟨out, log, hrun, _⟩ := sort_spec a f hf
    exact ⟨_, hrun⟩
  refine ⟨?_, hok fuel, ?_⟩
  · intro herr
    have key : Ext (sort fuel a) (sort (max fuel (sortFuel a)) a) :=
      Ext.le (fun n => sort n a) (fun n => sort_ext a n) (max fuel (sortFuel a)) fuel
        (le_max_left _ _)
    have h2 := key (by rw [herr]; simp)
    obtain ⟨r, hr⟩ := hok (max fuel (sortFuel a)) (le_max_right _ _)
    rw [hr, herr] at h2
    cases h2
  · intro ha hf
    subst ha
    have h4 : sort 4 [] = .ok ([], [⟨[], 0, 0, 0⟩]) := by decide
    have key : Ext (sort 4 []) (sort fuel []) :=
      Ext.le (fun n => sort n []) (fun n => sort_ext [] n) fuel 4 hf
    rw [key (by rw [h4]; simp), h4]

theorem sort_no_index_error_witness :
    sort 4 [] ≠ .error .indexOutOfRange ∧
      (sortFuel [] ≤ 4 → ∃ r, sort 4 [] = .ok r) ∧
      (([] : List GoString) = [] → sortFuel [] ≤ 4 → sort 4 [] = .ok ([], [⟨[], 0, 0, 0⟩])) :=
  sort_no_index_error [] 4

/-- C5. `Sort` terminates: for every slice some amount of fuel makes the run
return, and every larger amount gives the same result.  The bound
`sortFuel a` is computed from the number of strings and of their bytes. -/
theorem sort_terminates (a : List GoString) :
    ∃ r, sort (sortFuel a) a = .ok r ∧ ∀ fuel, sortFuel a ≤ fuel → sort fuel a = .ok r := by
  obtain ⟨out, log, hrun, _⟩ := sort_spec a (sortFuel a) (le_refl _)
  refine ⟨(out, log), hrun, ?_⟩
  intro fuel hf
  have key : Ext (sort (sortFuel a) a) (sort fuel a) :=
    Ext.le (fun n => sort n a) (fun n => sort_ext a n) fuel (sortFuel a) hf
  rw [key (by rw [hrun]; simp), hrun]

theorem sort_terminates_witness :
    (∃ r, sort (sortFuel [[120], [120], [120]]) [[120], [120], [120]] = .ok r ∧
      ∀ fuel, sortFuel [[120], [120], [120]] ≤ fuel →
        sort fuel [[120], [120], [120]] = .ok r) ∧
    sort 9 [[120], [120], [120]] =
      .ok ([[120], [120], [120]],
        [⟨[[120], [120], [120]], 0, 4, 0⟩, ⟨[], 0, 3, 1⟩, ⟨[], 0, 3, 1⟩, ⟨[], 1, 3, 1⟩]) :=
  ⟨sort_terminates [[120], [120], [120]], by decide⟩

/-- C6, as stated, fails: at depth 1 with budget 1 the window `["b", "a"]` is
left as it is, since both strings end before offset 1. -/
theorem qsort3_unsorted_at_depth_one :
    qsort3 8 [[98], [97]] 1 1 0 =
        .ok ([[98], [97]], [⟨[[98], [97]], 1, 1, 0⟩, ⟨[], 1, 0, 1⟩]) ∧
      ¬ List.Sorted strLe [[98], [97]] := by
  decide

/-- C6, amended. For every window whose strings agree on all their bytes
below offset `d` (every window, when `d = 0`), or when the budget is 0, and
for every budget, `qsort3(a, d, maxDepth)` leaves the window a permutation of
itself in non-decreasing byte-wise lexicographic order. -/
theorem qsort3_sorts_agreeing_window (a : List GoString) (d maxDepth lvl fuel : Nat)
    (hpre : AgreeBelow d a ∨ maxDepth = 0) (hfuel : 2 * mu a d + 4 ≤ fuel) :
    ∃ out log, qsort3 fuel a d maxDepth lvl = .ok (out, log) ∧ out.Perm a ∧
      List.Sorted strLe out := by
  rcases hpre with hag | hmd
  · obtain ⟨out, log, hrun, ⟨hp, hs⟩, _⟩ := (qsort3_main fuel).1 a d maxDepth lvl hfuel
    exact ⟨out, log, hrun, hp, hs hag⟩
  · subst hmd
    obtain ⟨fuel, rfl⟩ : ∃ f, fuel = f + 1 := ⟨fuel - 1, by omega⟩
    have hlm := length_le_mu a d
    obtain ⟨r, hrun, hperm, _, hsorted, _, _⟩ :=
      heapSort_spec fuel a 0 a.length (Nat.zero_le _) (le_refl _) (by omega)
    have hrun2 : heapSort fuel a 0 (a.length : Int) = Res.ok r := by simpa using hrun
    rw [qsort3]
    simp only [if_true, hrun2, Res.ok_bind, Res.pure_eq]
    refine ⟨_, _, rfl, hperm, ?_⟩
    rw [← hperm.length_eq, slice_full] at hsorted
    exact hsorted

theorem qsort3_sorts_agreeing_window_witness :
    (AgreeBelow 1 [[97, 98], [97, 97]] ∨ 1 = 0) ∧ 2 * mu [[97, 98], [97, 97]] 1 + 4 ≤ 12 ∧
      ∃ out log, qsort3 12 [[97, 98], [97, 97]] 1 1 0 = .ok (out, log) ∧
        out.Perm [[97, 98], [97, 97]] ∧ List.Sorted strLe out :=
  ⟨by decide, by decide,
    qsort3_sorts_agreeing_window [[97, 98], [97, 97]] 1 1 0 12 (by decide) (by decide)⟩

/-- C7. For `0 <= a <= b <= len(data)`, `heapSort(data, a, b)` leaves
`data[a:b]` a permutation of its original contents in non-decreasing order
under the full comparison of strings, and leaves the rest of `data` as it was. -/
theorem heapSort_sorts_window (data : List GoString) (a b fuel : Nat) (hab : a ≤ b)
    (hb : b ≤ data.length) (hfuel : 2 * (b - a) + 3 ≤ fuel) :
    ∃ r, heapSort fuel data a b = .ok r ∧
      (slice r a b).Perm (slice data a b) ∧ List.Sorted strLe (slice r a b) ∧
      r.take a = data.take a ∧ r.drop b = data.drop b := by
  obtain ⟨r, hrun, _, hp, hs, ht, hd⟩ := heapSort_spec fuel data a b hab hb hfuel
  exact ⟨r, hrun, hp, hs, ht, hd⟩

theorem heapSort_sorts_window_witness :
    1 ≤ 4 ∧ 4 ≤ ([[5], [3], [9], [1], [7]] : List GoString).length ∧ 2 * (4 - 1) + 3 ≤ 9 ∧
      ∃ r, heapSort 9 [[5], [3], [9], [1], [7]] ((1 : Nat) : Int) ((4 : Nat) : Int) = .ok r ∧
        (slice r 1 4).Perm (slice [[5], [3], [9], [1], [7]] 1 4) ∧
        List.Sorted strLe (slice r 1 4) ∧
        r.take 1 = ([[5], [3], [9], [1], [7]] : List GoString).take 1 ∧
        r.drop 4 = ([[5], [3], [9], [1], [7]] : List GoString).drop 4 :=
  ⟨by decide, by decide, by decide,
    heapSort_sorts_window [[5], [3], [9], [1], [7]] 1 4 9 (by decide) (by decide) (by decide)⟩

/-- C8 fails on the code: no run of `Sort` enters `qsort3` with budget 0 on a
window of two or more strings.  The budget is decremented once per call, the
calls nest at most `log2(len(a))` deep, and the initial budget is larger; so
the fallback to `heapSort` is reached on the empty slice only. -/
theorem heapSort_fallback_unreachable :
    ¬ ∃ (a : List GoString) (fuel : Nat) (out : List GoString) (log : List Call) (c : Call),
      sort fuel a = .ok (out, log) ∧ c ∈ log ∧ c.maxDepth = 0 ∧ 2 ≤ c.win.length := by
  rintro ⟨a, fuel, out, log, c, hrun, hc, hmd, hlen⟩
  have hrun2 := sort_ok_unique a fuel _ hrun
  obtain ⟨out2, log2, hrun3, _, _, hlog⟩ :=
    sort_spec a (max fuel (sortFuel a)) (le_max_right _ _)
  rw [hrun2] at hrun3
  cases hrun3
  obtain ⟨_, h2, h3, h4, _, _⟩ := hlog c hc
  have hb := lt_two_pow_bitLen a.length
  by_cases h0 : c.level = 0
  · have hbl : bitLen a.length = 0 := by omega
    rw [hbl, pow_zero] at hb
    rw [h0, Nat.sub_zero, pow_zero, Nat.mul_one] at h3
    omega
  · have h5 := h4 (by omega)
    simp only [Nat.sub_zero] at h5
    have h6 : 2 ^ c.level < 2 ^ bitLen a.length := lt_of_le_of_lt h5 hb
    have h7 : c.level < bitLen a.length := (Nat.pow_lt_pow_iff_right (by omega)).mp h6
    omega

/-- C8, on the reversed slice `["e", "d", "c", "b", "a"]`: the window lengths
and the budgets of the calls of `qsort3`; the budgets are 6, 5 and 4. -/
theorem heapSort_fallback_unreachable_example :
    (sort 24 [[101], [100], [99], [98], [97]]).val?.map
        (fun r => (r.1, r.2.map (fun c => (c.win.length, c.maxDepth)))) =
      some ([[97], [98], [99], [100], [101]],
        [(5, 6), (1, 5), (2, 5), (1, 4), (0, 4), (1, 5), (0, 5)]) := by
  decide

/-- C9. For a non-empty slice of length `n`, every call of `qsort3` made
during `Sort` has nesting level at most `log2(n)`; indeed a call at level `k`
has a window of at most `n / 2^k` strings. -/
theorem qsort3_nesting_le_log (a : List GoString) (fuel : Nat) (hne : a ≠ [])
    (hfuel : sortFuel a ≤ fuel) :
    ∃ out log, sort fuel a = .ok (out, log) ∧
      ∀ c ∈ log, c.level ≤ Nat.log 2 a.length ∧ c.win.length * 2 ^ c.level ≤ a.length := by
  obtain ⟨out, log, hrun, _, _, hlog⟩ := sort_spec a fuel hfuel
  refine ⟨out, log, hrun, ?_⟩
  intro c hc
  obtain ⟨_, _, h3, h4, _, _⟩ := hlog c hc
  simp only [Nat.sub_zero] at h3 h4
  refine ⟨?_, h3⟩
  by_cases h0 : c.level = 0
  · rw [h0]; exact Nat.zero_le _
  · have hlen : a.length ≠ 0 := by
      intro h; exact hne (List.length_eq_zero.mp h)
    exact (Nat.pow_le_iff_le_log (by omega) hlen).mp (h4 (by omega))

theorem qsort3_nesting_le_log_witness :
    ([[99], [98], [97], [96], [95]] : List GoString) ≠ [] ∧
      sortFuel [[99], [98], [97], [96], [95]] ≤ 24 ∧
      ∃ out log, sort 24 [[99], [98], [97], [96], [95]] = .ok (out, log) ∧
        ∀ c ∈ log, c.level ≤ Nat.log 2 ([[99], [98], [97], [96], [95]] : List GoString).length ∧
          c.win.length * 2 ^ c.level ≤ ([[99], [98], [97], [96], [95]] : List GoString).length :=
  ⟨by decide, by decide,
    qsort3_nesting_le_log [[99], [98], [97], [96], [95]] 24 (by decide) (by decide)⟩

/-- C10. `Sort` leaves a slice that is already in non-decreasing byte-wise
lexicographic order identical, and applying `Sort` to the result of `Sort`
gives that result again. -/
theorem sort_idempotent (a : List GoString) (fuel : Nat) (hfuel : sortFuel a ≤ fuel) :
    (List.Sorted strLe a → ∃ log, sort fuel a = .ok (a, log)) ∧
      ∃ out log log2, sort fuel a = .ok (out, log) ∧ sort fuel out = .ok (out, log2) := by
  have hsame : ∀ b : List GoString, sortFuel b ≤ fuel → List.Sorted strLe b →
      ∃ log, sort fuel b = .ok (b, log) := by
    intro b hb hsorted
    obtain ⟨out, log, hrun, hp, hs, _⟩ := sort_spec b fuel hb
    have e : out = b := List.eq_of_perm_of_sorted hp hs hsorted
    subst e
    exact ⟨log, hrun⟩
  refine ⟨hsame a hfuel, ?_⟩
  obtain ⟨out, log, hrun, hp, hs, _⟩ := sort_spec a fuel hfuel
  have hf2 : sortFuel out ≤ fuel := by
    unfold sortFuel at hfuel ⊢
    rw [mu_perm hp 0]; exact hfuel
  obtain ⟨log2, hrun2⟩ := hsame out hf2 hs
  exact ⟨out, log, log2, hrun, hrun2⟩

theorem sort_idempotent_witness :
    sortFuel [[97], [97, 98], [98]] ≤ 18 ∧
      (List.Sorted strLe [[97], [97, 98], [98]] →
        ∃ log, sort 18 [[97], [97, 98], [98]] = .ok ([[97], [97, 98], [98]], log)) ∧
      ∃ out log log2, sort 18 [[97], [97, 98], [98]] = .ok (out, log) ∧
        sort 18 out = .ok (out, log2) :=
  ⟨by decide, sort_idempotent [[97], [97, 98], [98]] 18 (by decide)⟩

/-- C11. The function `byteAt(s, d)` is total for `d >= 0`: within the string
it is the byte `s[d]`, an integer of `0..255`; at or past the end it is `-1`,
which is below every value obtained from a real byte. -/
theorem byteAt_total (s : GoString) (d : Nat) :
    (d < s.length → ∃ b : Byte, s[d]? = some b ∧ byteAt s d = (b.val : Int) ∧
      0 ≤ byteAt s d ∧ byteAt s d ≤ 255) ∧
    (s.length ≤ d → byteAt s d = -1) ∧
    (s.length ≤ d → ∀ (t : GoString) (e : Nat), e < t.length → byteAt s d < byteAt t e) := by
  refine ⟨?_, byteAt_of_le s d, ?_⟩
  · intro h
    refine ⟨s[d], List.getElem?_eq_getElem h, ?_, ?_, ?_⟩
    · simp [byteAt, h]
    · exact byteAt_of_lt s d h
    · have := (s[d]).isLt
      simp only [byteAt, h, dif_pos]
      omega
  · intro h t e he
    rw [byteAt_of_le s d h]
    have := byteAt_of_lt t e he
    omega

theorem byteAt_total_witness :
    (1 < ([97, 98] : GoString).length → ∃ b : Byte, ([97, 98] : GoString)[1]? = some b ∧
      byteAt [97, 98] 1 = (b.val : Int) ∧ 0 ≤ byteAt [97, 98] 1 ∧ byteAt [97, 98] 1 ≤ 255) ∧
    (([97, 98] : GoString).length ≤ 1 → byteAt [97, 98] 1 = -1) ∧
    (([97, 98] : GoString).length ≤ 1 → ∀ (t : GoString) (e : Nat), e < t.length →
      byteAt [97, 98] 1 < byteAt t e) :=
  byteAt_total [97, 98] 1

theorem bitLen_eq_clog (n : Nat) : bitLen n = Nat.clog 2 (n + 1) := by
  apply le_antisymm
  · have h1 : n + 1 ≤ 2 ^ Nat.clog 2 (n + 1) := Nat.le_pow_clog (by omega) _
    unfold bitLen
    by_cases h : n = 0
    · simp [h]
    · simp only [h, if_false]
      have h2 : 2 ^ Nat.log 2 n ≤ n := Nat.pow_log_le_self 2 h
      have h3 : 2 ^ Nat.log 2 n < 2 ^ Nat.clog 2 (n + 1) := by omega
      have h4 := (Nat.pow_lt_pow_iff_right (by omega : 1 < 2)).mp h3
      omega
  · apply (Nat.le_pow_iff_clog_le (by omega)).mp
    have := lt_two_pow_bitLen n
    omega

/-- C12. For every `n >= 0`, `maxDepth(n)` is `2 * ceil(log2(n + 1))`, twice
the least `k` with `n + 1 <= 2^k`. -/
theorem maxDepth_eq_clog (n fuel : Nat) (hfuel : n < fuel) :
    maxDepth fuel n = .ok (2 * Nat.clog 2 (n + 1)) ∧ n + 1 ≤ 2 ^ Nat.clog 2 (n + 1) ∧
      ∀ k, n + 1 ≤ 2 ^ k → Nat.clog 2 (n + 1) ≤ k := by
  have hb := bitLen_le n
  refine ⟨?_, Nat.le_pow_clog (by omega) _, fun k hk => (Nat.le_pow_iff_clog_le (by omega)).mp hk⟩
  rw [maxDepth_spec fuel n (by omega), bitLen_eq_clog, Nat.mul_comm]

theorem maxDepth_eq_clog_witness :
    (4 < 5 ∧ maxDepth 5 4 = .ok (2 * Nat.clog 2 (4 + 1)) ∧ 4 + 1 ≤ 2 ^ Nat.clog 2 (4 + 1) ∧
      ∀ k, 4 + 1 ≤ 2 ^ k → Nat.clog 2 (4 + 1) ≤ k) ∧
    maxDepth 5 0 = .ok 0 ∧ maxDepth 5 1 = .ok 2 ∧ maxDepth 5 3 = .ok 4 ∧
      maxDepth 5 4 = .ok 6 :=
  ⟨⟨by decide, maxDepth_eq_clog 4 5 (by decide)⟩, by decide, by decide, by decide, by decide⟩

theorem median3_eq_middle (i j k : Int) : median3 i j k = middle i j k := by
  unfold median3 middle
  split_ifs <;> omega

theorem middle_comm12 (i j k : Int) : middle j i k = middle i j k := by
  unfold middle; omega

theorem middle_comm23 (i j k : Int) : middle i k j = middle i j k := by
  unfold middle; omega

/-- C13. For all integers, `median3(i, j, k)` is the middle element of the
triple sorted in non-decreasing order; it is one of the inputs, and the
repeated value when two inputs are equal. -/
theorem median3_sorted_middle (i j k : Int) :
    (List.insertionSort (fun x y : Int => x ≤ y) [i, j, k])[1]? = some (median3 i j k) ∧
      median3 i j k = middle i j k ∧
      (median3 i j k = i ∨ median3 i j k = j ∨ median3 i j k = k) ∧
      (i = j → median3 i j k = i) ∧ (j = k → median3 i j k = j) ∧
      (i = k → median3 i j k = i) := by
  refine ⟨?_, median3_eq_middle i j k, ?_, ?_, ?_, ?_⟩
  · by_cases hjk : j ≤ k <;> by_cases hij : i ≤ j <;> by_cases hik : i ≤ k <;>
      simp only [List.insertionSort, List.orderedInsert, hjk, hij, hik, if_true, if_false,
        List.getElem?_cons_succ, List.getElem?_cons_zero, Option.some.injEq] <;>
      unfold median3 <;> split_ifs <;> omega
  · unfold median3; split_ifs <;> simp
  · intro h; unfold median3; split_ifs <;> omega
  · intro h; unfold median3; split_ifs <;> omega
  · intro h; unfold median3; split_ifs <;> omega

/-- C14. For all integers, `max3(i, j, k)` is the maximum of the three, the
last element of the triple sorted in non-decreasing order. -/
theorem max3_sorted_last (i j k : Int) :
    max3 i j k = max i (max j k) ∧
      (List.insertionSort (fun x y : Int => x ≤ y) [i, j, k])[2]? = some (max3 i j k) := by
  constructor
  · unfold max3; simp only; split_ifs <;> omega
  · by_cases hjk : j ≤ k <;> by_cases hij : i ≤ j <;> by_cases hik : i ≤ k <;>
      simp only [List.insertionSort, List.orderedInsert, hjk, hij, hik, if_true, if_false,
        List.getElem?_cons_succ, List.getElem?_cons_zero, Option.some.injEq] <;>
      unfold max3 <;> simp only <;> split_ifs <;> omega

/-- C15. `Sort` applied to `["ab", "a", "abc"]` leaves `["a", "ab", "abc"]`:
the proper prefix comes before its extensions. -/
theorem sort_prefix_example (fuel : Nat)
    (hfuel : sortFuel [[97, 98], [97], [97, 98, 99]] ≤ fuel) :
    ∃ log, sort fuel [[97, 98], [97], [97, 98, 99]] =
      .ok ([[97], [97, 98], [97, 98, 99]], log) := by
  obtain ⟨out, log, hrun, hp, hs, _⟩ := sort_spec _ fuel hfuel
  have e : out = [[97], [97, 98], [97, 98, 99]] :=
    List.eq_of_perm_of_sorted (hp.trans (by decide)) hs (by decide)
  subst e
  exact ⟨log, hrun⟩

theorem sort_prefix_example_witness :
    sortFuel [[97, 98], [97], [97, 98, 99]] ≤ 22 ∧
      (∃ log, sort 22 [[97, 98], [97], [97, 98, 99]] =
        .ok ([[97], [97, 98], [97, 98, 99]], log)) ∧
      (sort 22 [[97, 98], [97], [97, 98, 99]]).val?.map (fun r => r.1) =
        some [[97], [97, 98], [97, 98, 99]] :=
  ⟨by decide, sort_prefix_example 22 (by decide), by decide⟩

/-- With at most as many units of fuel as there are unexamined elements, the
partition loop runs out of fuel: every iteration consumes one unit. -/
theorem partition_oof : ∀ (fuel : Nat) (a : List GoString) (d : Nat) (p : Int) (eq x gt : Nat),
    eq ≤ x → gt ≤ a.length → fuel ≤ gt - x →
    partition fuel a d p eq x gt = .error .outOfFuel
  | 0, _, _, _, _, _, _, _, _, _ => rfl
  | fuel + 1, a, d, p, eq, x, gt, h1, h3, hf => by
    have hx : x < gt := by omega
    have hxl : x < a.length := by omega
    rw [partition]
    simp only [hx, if_true, index_ok a x hxl, Res.ok_bind]
    by_cases hc : byteAt (a.getD x []) d < p
    · simp only [hc, if_true, swap_ok a x eq hxl (by omega), Res.ok_bind]
      exact partition_oof fuel _ d p (eq + 1) (x + 1) gt (by omega)
        (by rw [length_swapN]; exact h3) (by omega)
    · by_cases hc2 : byteAt (a.getD x []) d = p
      · simp only [hc, hc2, if_true, if_false]
        have := partition_oof fuel a d p eq (x + 1) gt (by omega) h3 (by omega)
        simpa [hc2] using this
      · simp only [hc, hc2, if_false]
        rw [swap_ok a x (gt - 1) hxl (by omega)]
        simp only [Res.ok_bind]
        exact partition_oof fuel _ d p eq x (gt - 1) h1
          (by rw [length_swapN]; omega) (by omega)

/-- One iteration of the partition loop keeps the invariant and examines one
element. -/
theorem partition_step (fuel : Nat) (a : List GoString) (d : Nat) (p : Int) (eq x gt : Nat)
    (hinv : PartInv a d p eq x gt) (hx : x < gt) :
    ∃ a2 eq2 x2 gt2, partition (fuel + 1) a d p eq x gt = partition fuel a2 d p eq2 x2 gt2 ∧
      PartInv a2 d p eq2 x2 gt2 ∧ gt2 - x2 + 1 = gt - x ∧ a2.Perm a := by
  obtain ⟨h1, h2, h3, hlt, heq, hgt⟩ := hinv
  have hxl : x < a.length := by omega
  rw [partition]
  simp only [hx, if_true, index_ok a x hxl, Res.ok_bind]
  by_cases hc : byteAt (a.getD x []) d < p
  · simp only [hc, if_true, swap_ok a x eq hxl (by omega), Res.ok_bind]
    refine ⟨swapN a x eq, eq + 1, x + 1, gt, rfl, ?_, by omega, swapN_perm a x eq hxl (by omega)⟩
    refine ⟨by omega, by omega, by rw [length_swapN]; omega, ?_, ?_, ?_⟩
    · intro k hk
      rw [getD_swapN a x eq k hxl (by omega)]
      by_cases e1 : k = eq
      · simp only [e1, if_true]; exact hc
      · have e2 : k ≠ x := by omega
        simp only [e1, e2, if_false]
        exact hlt k (by omega)
    · intro k hk1 hk2
      rw [getD_swapN a x eq k hxl (by omega)]
      have e1 : k ≠ eq := by omega
      by_cases e2 : k = x
      · subst e2
        simp only [e1, if_false, if_true]
        exact heq eq (le_refl _) (by omega)
      · simp only [e1, e2, if_false]
        exact heq k (by omega) (by omega)
    · intro k hk1 hk2
      rw [length_swapN] at hk2
      rw [getD_swapN a x eq k hxl (by omega)]
      have e1 : k ≠ eq := by omega
      have e2 : k ≠ x := by omega
      simp only [e1, e2, if_false]
      exact hgt k hk1 hk2
  · by_cases hc2 : byteAt (a.getD x []) d = p
    · simp only [hc, hc2, if_true, if_false]
      refine ⟨a, eq, x + 1, gt, ?_, ?_, by omega, List.Perm.refl a⟩
      · simp [hc2]
      · refine ⟨by omega, by omega, h3, hlt, ?_, hgt⟩
        intro k hk1 hk2
        by_cases e : k = x
        · rw [e]; exact hc2
        · exact heq k hk1 (by omega)
    · simp only [hc, hc2, if_false]
      rw [swap_ok a x (gt - 1) hxl (by omega)]
      simp only [Res.ok_bind]
      refine ⟨swapN a x (gt - 1), eq, x, gt - 1, rfl, ?_, by omega,
        swapN_perm a x (gt - 1) hxl (by omega)⟩
      refine ⟨h1, by omega, by rw [length_swapN]; omega, ?_, ?_, ?_⟩
      · intro k hk
        rw [getD_swapN a x (gt - 1) k hxl (by omega)]
        have e1 : k ≠ gt - 1 := by omega
        have e2 : k ≠ x := by omega
        simp only [e1, e2, if_false]
        exact hlt k hk
      · intro k hk1 hk2
        rw [getD_swapN a x (gt - 1) k hxl (by omega)]
        have e1 : k ≠ gt - 1 := by omega
        have e2 : k ≠ x := by omega
        simp only [e1, e2, if_false]
        exact heq k hk1 hk2
      · intro k hk1 hk2
        rw [length_swapN] at hk2
        rw [getD_swapN a x (gt - 1) k hxl (by omega)]
        by_cases e1 : k = gt - 1
        · simp only [e1, if_true]
          omega
        · simp only [e1, if_false]
          have e2 : k ≠ x := by omega
          simp only [e2, if_false]
          exact hgt k (by omega) hk2

theorem partInv_init (a : List GoString) (d : Nat) (p : Int) : PartInv a d p 0 0 a.length :=
  ⟨le_refl _, Nat.zero_le _, le_refl _, fun k hk => by omega, fun k hk1 hk2 => by omega,
    fun k hk1 hk2 => by omega⟩

/-- C16. For every window, depth and pivot value, the partition loop of
`qsort3` exits with a permutation of the window, `0 <= eq <= gt <= len(a)`,
the bytes at `d` below the pivot in `a[:eq]`, equal to it in `a[eq:gt]` and
above it in `a[gt:]`.  The loop runs exactly `len(a)` iterations (it needs one
unit of fuel for each and one for the final test), and every iteration keeps
the invariant and makes the unexamined region `a[x:gt]` one element shorter. -/
theorem partition_loop_exit (a : List GoString) (d : Nat) (p : Int) :
    (∃ a2 eq gt, partition (a.length + 1) a d p 0 0 a.length = .ok (a2, eq, gt) ∧
      a2.Perm a ∧ eq ≤ gt ∧ gt ≤ a2.length ∧ a2.length = a.length ∧
      (∀ s ∈ slice a2 0 eq, byteAt s d < p) ∧ (∀ s ∈ slice a2 eq gt, byteAt s d = p) ∧
      (∀ s ∈ slice a2 gt a2.length, p < byteAt s d) ∧
      (∀ fuel, a.length < fuel → partition fuel a d p 0 0 a.length = .ok (a2, eq, gt))) ∧
    (∀ fuel, fuel ≤ a.length → partition fuel a d p 0 0 a.length = .error .outOfFuel) ∧
    PartInv a d p 0 0 a.length ∧
    (∀ (fuel : Nat) (b : List GoString) (eq x gt : Nat), PartInv b d p eq x gt → x < gt →
      ∃ b2 eq2 x2 gt2, partition (fuel + 1) b d p eq x gt = partition fuel b2 d p eq2 x2 gt2 ∧
        PartInv b2 d p eq2 x2 gt2 ∧ gt2 - x2 + 1 = gt - x ∧ b2.Perm b) := by
  refine ⟨?_, ?_, partInv_init a d p, fun fuel b eq x gt => partition_step fuel b d p eq x gt⟩
  · obtain ⟨a2, eq, gt, hrun, hperm, hinv⟩ :=
      partition_spec (a.length + 1) a d p 0 0 a.length (partInv_init a d p) (by omega)
    have R := regions_of_partInv a a2 d p eq gt hperm hinv
    refine ⟨a2, eq, gt, hrun, hperm, R.le1, R.le2, R.length_eq, R.lt, R.eqv, R.gtv, ?_⟩
    intro fuel hf
    have key : Ext (partition (a.length + 1) a d p 0 0 a.length)
        (partition fuel a d p 0 0 a.length) :=
      Ext.le (fun n => partition n a d p 0 0 a.length)
        (fun n => partition_ext n a d p 0 0 a.length) fuel (a.length + 1) (by omega)
    rw [key (by rw [hrun]; simp), hrun]
  · intro fuel hf
    exact partition_oof fuel a d p 0 0 a.length (le_refl _) (le_refl _) (by omega)

theorem partition_loop_exit_witness :
    partition 4 [[98], [97], [99]] 0 98 0 0 3 = .ok ([[97], [98], [99]], 1, 2) ∧
      partition 3 [[98], [97], [99]] 0 98 0 0 3 = .error .outOfFuel ∧
      (∀ fuel, fuel ≤ ([[98], [97], [99]] : List GoString).length →
        partition fuel [[98], [97], [99]] 0 98 0 0 ([[98], [97], [99]] : List GoString).length =
          .error .outOfFuel) :=
  ⟨by decide, by decide, (partition_loop_exit [[98], [97], [99]] 0 98).2.1⟩

/-- The value of `pivot(a, d)` on a non-empty window, in terms of `median3`
and of the samples the source takes, in the order of the source. -/
theorem pivot_value (a : List GoString) (d : Nat) (h : 1 ≤ a.length) :
    (a.length ≤ 40 → pivot a d = .ok (median3 (sample a d 0) (sample a d (a.length / 2))
      (sample a d (a.length - 1)))) ∧
    (40 < a.length → pivot a d = .ok (median3
      (median3 (sample a d 0) (sample a d (a.length / 8)) (sample a d (2 * (a.length / 8))))
      (median3 (sample a d (a.length / 2)) (sample a d (a.length / 2 - a.length / 8))
        (sample a d (a.length / 2 + a.length / 8)))
      (median3 (sample a d (a.length - 1)) (sample a d (a.length - 1 - a.length / 8))
        (sample a d (a.length - 1 - 2 * (a.length / 8)))))) := by
  have hm : (a.length >>> 1) = a.length / 2 := by
    simp [Nat.shiftRight_eq_div_pow]
  constructor
  · intro hn
    have hn2 : ¬ ((a.length : Int) > 40) := by omega
    unfold pivot
    simp only [hm, hn2, if_false]
    have c0 : (0 : Int) ≤ 0 ∧ (0 : Int) < a.length := by omega
    have c3 : (0 : Int) ≤ ((a.length / 2 : Nat) : Int) ∧
        ((a.length / 2 : Nat) : Int) < a.length := by omega
    have c6 : (0 : Int) ≤ (a.length : Int) - 1 ∧ (a.length : Int) - 1 < a.length := by omega
    rw [index_ok_int a _ c0.1 c0.2, index_ok_int a _ c3.1 c3.2, index_ok_int a _ c6.1 c6.2]
    have e6 : ((a.length : Int) - 1).toNat = a.length - 1 := by omega
    simp only [Res.ok_bind, Res.pure_eq, sample, e6, Int.toNat_zero, Int.toNat_ofNat]
  · intro hn
    have hn2 : ((a.length : Int) > 40) := by omega
    unfold pivot
    simp only [hm, hn2, if_true]
    have c0 : (0 : Int) ≤ 0 ∧ (0 : Int) < a.length := by omega
    have c1 : (0 : Int) ≤ ((a.length / 8 : Nat) : Int) ∧
        ((a.length / 8 : Nat) : Int) < a.length := by omega
    have c2 : (0 : Int) ≤ 2 * ((a.length / 8 : Nat) : Int) ∧
        2 * ((a.length / 8 : Nat) : Int) < a.length := by omega
    have c3 : (0 : Int) ≤ ((a.length / 2 : Nat) : Int) ∧
        ((a.length / 2 : Nat) : Int) < a.length := by omega
    have c4 : (0 : Int) ≤ ((a.length / 2 : Nat) : Int) - ((a.length / 8 : Nat) : Int) ∧
        ((a.length / 2 : Nat) : Int) - ((a.length / 8 : Nat) : Int) < a.length := by omega
    have c5 : (0 : Int) ≤ ((a.length / 2 : Nat) : Int) + ((a.length / 8 : Nat) : Int) ∧
        ((a.length / 2 : Nat) : Int) + ((a.length / 8 : Nat) : Int) < a.length := by omega
    have c6 : (0 : Int) ≤ (a.length : Int) - 1 ∧ (a.length : Int) - 1 < a.length := by omega
    have c7 : (0 : Int) ≤ (a.length : Int) - 1 - ((a.length / 8 : Nat) : Int) ∧
        (a.length : Int) - 1 - ((a.length / 8 : Nat) : Int) < a.length := by omega
    have c8 : (0 : Int) ≤ (a.length : Int) - 1 - 2 * ((a.length / 8 : Nat) : Int) ∧
        (a.length : Int) - 1 - 2 * ((a.length / 8 : Nat) : Int) < a.length := by omega
    rw [index_ok_int a _ c0.1 c0.2, index_ok_int a _ c1.1 c1.2, index_ok_int a _ c2.1 c2.2,
      index_ok_int a _ c3.1 c3.2, index_ok_int a _ c4.1 c4.2, index_ok_int a _ c5.1 c5.2,
      index_ok_int a _ c6.1 c6.2, index_ok_int a _ c7.1 c7.2, index_ok_int a _ c8.1 c8.2]
    have e2 : (2 * ((a.length / 8 : Nat) : Int)).toNat = 2 * (a.length / 8) := by omega
    have e4 : (((a.length / 2 : Nat) : Int) - ((a.length / 8 : Nat) : Int)).toNat =
        a.length / 2 - a.length / 8 := by omega
    have e5 : (((a.length / 2 : Nat) : Int) + ((a.length / 8 : Nat) : Int)).toNat =
        a.length / 2 + a.length / 8 := by omega
    have e6 : ((a.length : Int) - 1).toNat = a.length - 1 := by omega
    have e7 : ((a.length : Int) - 1 - ((a.length / 8 : Nat) : Int)).toNat =
        a.length - 1 - a.length / 8 := by omega
    have e8 : ((a.length : Int) - 1 - 2 * ((a.length / 8 : Nat) : Int)).toNat =
        a.length - 1 - 2 * (a.length / 8) := by omega
    simp only [Res.ok_bind, Res.pure_eq, sample, e2, e4, e5, e6, e7, e8, Int.toNat_zero,
      Int.toNat_ofNat]

/-- C17. On a non-empty window of at most 40 strings `pivot(a, d)` is the
median of the bytes at `d` at the indices `0`, `len(a)/2` and `len(a)-1`; on a
longer window, with `s = len(a)/8` and `m = len(a)/2`, it is the median of the
medians of the groups `{0, s, 2s}`, `{m-s, m, m+s}` and
`{len(a)-1-2s, len(a)-1-s, len(a)-1}`.  Every sampled index is in `[0, len(a))`. -/
theorem pivot_is_median (a : List GoString) (d : Nat) (hne : a ≠ []) :
    (a.length ≤ 40 →
      pivot a d = .ok (middle (sample a d 0) (sample a d (a.length / 2))
        (sample a d (a.length - 1))) ∧
      0 < a.length ∧ a.length / 2 < a.length ∧ a.length - 1 < a.length) ∧
    (40 < a.length →
      pivot a d = .ok (middle
        (middle (sample a d 0) (sample a d (a.length / 8)) (sample a d (2 * (a.length / 8))))
        (middle (sample a d (a.length / 2 - a.length / 8)) (sample a d (a.length / 2))
          (sample a d (a.length / 2 + a.length / 8)))
        (middle (sample a d (a.length - 1 - 2 * (a.length / 8)))
          (sample a d (a.length - 1 - a.length / 8)) (sample a d (a.length - 1)))) ∧
      2 * (a.length / 8) < a.length ∧ a.length / 8 ≤ a.length / 2 ∧
      a.length / 2 + a.length / 8 < a.length ∧ 2 * (a.length / 8) ≤ a.length - 1) := by
  have hlen : 1 ≤ a.length := by
    cases a with
    | nil => exact absurd rfl hne
    | cons x l => simp
  obtain ⟨h1, h2⟩ := pivot_value a d hlen
  constructor
  · intro hn
    refine ⟨?_, by omega, by omega, by omega⟩
    rw [h1 hn, median3_eq_middle]
  · intro hn
    refine ⟨?_, by omega, by omega, by omega, by omega⟩
    rw [h2 hn]
    simp only [median3_eq_middle]
    congr 2
    · unfold middle; omega
    · unfold middle; omega

theorem pivot_is_median_witness :
    ([[98], [97], [99]] : List GoString) ≠ [] ∧
      (([[98], [97], [99]] : List GoString).length ≤ 40 →
        pivot [[98], [97], [99]] 0 = .ok (middle (sample [[98], [97], [99]] 0 0)
          (sample [[98], [97], [99]] 0 (([[98], [97], [99]] : List GoString).length / 2))
          (sample [[98], [97], [99]] 0 (([[98], [97], [99]] : List GoString).length - 1))) ∧
        0 < ([[98], [97], [99]] : List GoString).length ∧
        ([[98], [97], [99]] : List GoString).length / 2 <
          ([[98], [97], [99]] : List GoString).length ∧
        ([[98], [97], [99]] : List GoString).length - 1 <
          ([[98], [97], [99]] : List GoString).length) ∧
      pivot [[98], [97], [99]] 0 = .ok 98 :=
  ⟨by decide, (pivot_is_median [[98], [97], [99]] 0 (by decide)).1, by decide⟩

theorem firstDiffLt_of_strLt : ∀ (s t : GoString), strLt s t = true → FirstDiffLt s t
  | [], [], h => by simp [strLt] at h
  | [], y :: t, _ => ⟨0, fun i hi => absurd hi (Nat.not_lt_zero i), by
      rw [byteAt_nil, byteAt_cons_zero]; omega⟩
  | x :: s, [], h => by simp [strLt] at h
  | x :: s, y :: t, h => by
    simp only [strLt] at h
    by_cases h1 : x < y
    · refine ⟨0, fun i hi => absurd hi (Nat.not_lt_zero i), ?_⟩
      rw [byteAt_cons_zero, byteAt_cons_zero]
      rw [Fin.lt_def] at h1
      omega
    · by_cases h2 : y < x
      · simp [h1, h2] at h
      · simp only [h1, h2, if_false] at h
        have e : x = y := le_antisymm (not_lt.mp h2) (not_lt.mp h1)
        subst e
        obtain ⟨d, hag, hlt⟩ := firstDiffLt_of_strLt s t h
        refine ⟨d + 1, ?_, ?_⟩
        · intro i hi
          cases i with
          | zero => rw [byteAt_cons_zero, byteAt_cons_zero]
          | succ i =>
            rw [byteAt_cons_succ, byteAt_cons_succ]
            exact hag i (by omega)
        · rw [byteAt_cons_succ, byteAt_cons_succ]; exact hlt

theorem byteAt_append_left (s u : GoString) (i : Nat) (h : i < s.length) :
    byteAt (s ++ u) i = byteAt s i := by
  have h2 : i < (s ++ u).length := by rw [List.length_append]; omega
  simp only [byteAt, h, h2, dif_pos, List.getElem_append_left h]

/-- C18. A string `s` is below `t` in the byte-wise lexicographic order
exactly when at some offset `d` the strings agree below `d` and
`byteAt(s, d) < byteAt(t, d)`; a proper prefix is below each of its
extensions, with `d` the length of the prefix. -/
theorem strLt_iff_firstDiffLt (s t : GoString) :
    (strLt s t = true ↔ FirstDiffLt s t) ∧
    (∀ (x : Byte) (u : GoString), strLt s (s ++ x :: u) = true ∧
      (∀ i, i < s.length → byteAt s i = byteAt (s ++ x :: u) i) ∧
      byteAt s s.length = -1 ∧ byteAt (s ++ x :: u) s.length = (x.val : Int)) := by
  constructor
  · constructor
    · exact firstDiffLt_of_strLt s t
    · rintro ⟨d, hag, hlt⟩
      exact strLt_of_byteAt_lt d s t hag hlt
  · intro x u
    have hag : ∀ i, i < s.length → byteAt s i = byteAt (s ++ x :: u) i :=
      fun i hi => (byteAt_append_left s (x :: u) i hi).symm
    have h1 : byteAt s s.length = -1 := byteAt_of_le s s.length (le_refl _)
    have h2 : byteAt (s ++ x :: u) s.length = (x.val : Int) := by
      have hl : s.length < (s ++ x :: u).length := by simp
      have h3 : (s ++ x :: u)[s.length]? = some x := by
        rw [List.getElem?_append_right (le_refl _)]; simp
      have h4 : (s ++ x :: u)[s.length] = x := by
        rw [List.getElem?_eq_getElem hl] at h3; exact Option.some.inj h3
      simp only [byteAt, hl, dif_pos, h4]
    refine ⟨strLt_of_byteAt_lt s.length s _ hag ?_, hag, h1, h2⟩
    rw [h1, h2]; omega

/-! ## The passes of the loop of `qsort3` -/

theorem byteAt_eq_of_getElem? (s t : GoString) (i : Nat) (h : s[i]? = t[i]?) :
    byteAt s i = byteAt t i := by
  by_cases hs : i < s.length
  · have ht : i < t.length := by
      by_contra hc
      rw [List.getElem?_eq_getElem hs, List.getElem?_eq_none (by omega)] at h
      cases h
    rw [List.getElem?_eq_getElem hs, List.getElem?_eq_getElem ht] at h
    simp only [byteAt, hs, ht, dif_pos, Option.some.inj h]
  · have ht : ¬ i < t.length := by
      intro hc
      rw [List.getElem?_eq_getElem hc, List.getElem?_eq_none (by omega)] at h
      cases h
    rw [byteAt_of_le s i (by omega), byteAt_of_le t i (by omega)]

theorem sharedPrefix_iff (d : Nat) (a : List GoString) :
    SharedPrefix d a ↔ LongEnough d a ∧ AgreeBelow d a := by
  constructor
  · rintro ⟨hl, ht⟩
    refine ⟨hl, ?_⟩
    intro s hs t hts i hi
    apply byteAt_eq_of_getElem?
    have := congrArg (fun l : GoString => l[i]?) (ht s hs t hts)
    simpa [List.getElem?_take, hi] using this
  · rintro ⟨hl, hag⟩
    refine ⟨hl, ?_⟩
    intro s hs t hts
    apply List.ext_getElem?
    intro i
    simp only [List.getElem?_take]
    by_cases hi : i < d
    · simp only [hi, if_true]
      have h1 : i < s.length := lt_of_lt_of_le hi (hl s hs)
      have h2 : i < t.length := lt_of_lt_of_le hi (hl t hts)
      have h3 := hag s hs t hts i hi
      simp only [byteAt, h1, h2, dif_pos] at h3
      rw [List.getElem?_eq_getElem h1, List.getElem?_eq_getElem h2]
      congr 1
      apply Fin.ext
      omega
    · simp only [hi, if_false]

theorem partition_ok_inv (fuel : Nat) (a : List GoString) (d : Nat) (p : Int)
    (a2 : List GoString) (eq gt : Nat)
    (h : partition fuel a d p 0 0 a.length = .ok (a2, eq, gt)) :
    a2.Perm a ∧ PartInv a2 d p eq gt gt := by
  have key : Ext (partition fuel a d p 0 0 a.length)
      (partition (max fuel (a.length + 1)) a d p 0 0 a.length) :=
    Ext.le (fun n => partition n a d p 0 0 a.length)
      (fun n => partition_ext n a d p 0 0 a.length) _ fuel (le_max_left _ _)
  have h2 := key (by rw [h]; simp)
  obtain ⟨b, eq2, gt2, hrun, hperm, hinv⟩ :=
    partition_spec (max fuel (a.length + 1)) a d p 0 0 a.length (partInv_init a d p)
      (by have := le_max_right fuel (a.length + 1); omega)
  rw [h2, h] at hrun
  cases hrun
  exact ⟨hperm, hinv⟩

theorem bind_ok {α β : Type} {m : Res α} {k : α → Res β} {r : β}
    (h : (m >>= k) = .ok r) : ∃ v, m = .ok v ∧ k v = .ok r := by
  cases m with
  | ok v => exact ⟨v, rfl, h⟩
  | error e => cases h

theorem subslice_ok {a w : List GoString} {lo hi : Nat} (h : subslice a lo hi = .ok w) :
    w = slice a lo hi := by
  unfold subslice at h
  split_ifs at h
  cases h
  rfl

/-- What one pass of the loop does to the loop variables: the pivot `p` is a
byte of the window, the pass partitions about it, and the loop continues on
one of the three regions, at depth `d + 1` on the middle one. -/
theorem loopNext_cases (fuel : Nat) (a : List GoString) (d : Nat) (w : List GoString)
    (e : Nat) (hlen : 1 ≤ a.length) (h : loopNext fuel a d = .ok (w, e)) :
    ∃ p a2 eq gt, pivot a d = .ok p ∧ (∃ k, k < a.length ∧ p = byteAt (a.getD k []) d) ∧
      partition fuel a d p 0 0 a.length = .ok (a2, eq, gt) ∧ Regions a a2 d p eq gt ∧
      ((w = slice a2 0 eq ∧ e = d) ∨ (w = slice a2 gt a2.length ∧ e = d) ∨
        (w = slice a2 eq gt ∧ e = d + 1 ∧ 0 ≤ p)) := by
  obtain ⟨p, hpiv, hpk⟩ := pivot_spec a d hlen
  unfold loopNext at h
  rw [hpiv] at h
  simp only [Res.ok_bind] at h
  obtain ⟨⟨a2, eq, gt⟩, hpart, h⟩ := bind_ok h
  obtain ⟨hperm, hinv⟩ := partition_ok_inv fuel a d p a2 eq gt hpart
  have R := regions_of_partInv a a2 d p eq gt hperm hinv
  refine ⟨p, a2, eq, gt, hpiv, hpk, hpart, R, ?_⟩
  simp only at h
  split_ifs at h with c1 c2 c3 c4
  · obtain ⟨v, hv, h⟩ := bind_ok h
    cases h
    exact Or.inr (Or.inl ⟨subslice_ok hv, rfl⟩)
  · obtain ⟨v, hv, h⟩ := bind_ok h
    cases h
    exact Or.inl ⟨subslice_ok hv, rfl⟩
  · obtain ⟨v, hv, h⟩ := bind_ok h
    cases h
    exact Or.inl ⟨subslice_ok hv, rfl⟩
  · obtain ⟨v, hv, h⟩ := bind_ok h
    cases h
    exact Or.inr (Or.inr ⟨subslice_ok hv, rfl, by omega⟩)
  · obtain ⟨v, hv, h⟩ := bind_ok h
    cases h
    exact Or.inr (Or.inl ⟨subslice_ok hv, rfl⟩)

theorem loopNext_sharedPrefix (fuel : Nat) (a : List GoString) (d : Nat) (w : List GoString)
    (e : Nat) (hlen : 1 ≤ a.length) (h : loopNext fuel a d = .ok (w, e))
    (hpre : SharedPrefix d a) : SharedPrefix e w := by
  obtain ⟨hl, hag⟩ := (sharedPrefix_iff d a).mp hpre
  obtain ⟨p, a2, eq, gt, _, _, _, R, hw⟩ := loopNext_cases fuel a d w e hlen h
  rw [sharedPrefix_iff]
  rcases hw with ⟨rfl, rfl⟩ | ⟨rfl, rfl⟩ | ⟨rfl, rfl, hp⟩
  · exact ⟨R.longL hl, R.agreeL hag⟩
  · exact ⟨R.longG hl, R.agreeG hag⟩
  · exact ⟨fun s hs => R.longE hp s hs, R.agreeE hag⟩

theorem loopReach_sharedPrefix (a : List GoString) (d : Nat) (hpre : SharedPrefix d a)
    (w : List GoString) (e : Nat) (h : LoopReach a d w e) : SharedPrefix e w := by
  induction h with
  | start => exact hpre
  | next w e w2 e2 fuel _ hlen hnext ih =>
    exact loopNext_sharedPrefix fuel w e w2 e2 (by omega) hnext ih

/-- The function `loopNext` gives the loop variables of `qsort3Loop`: a pass of
`qsort3Loop` on a window of more than one string continues with the run of
`qsort3Loop` on the window and at the depth that `loopNext` gives, and the
calls of that run are calls of the pass. -/
theorem qsort3Loop_next (fuel : Nat) (a : List GoString) (d md lvl : Nat)
    (out : List GoString) (log : List Call) (hlen : 1 < a.length)
    (h : qsort3Loop (fuel + 1) a d md lvl = .ok (out, log)) :
    ∃ w e out2 log2, loopNext fuel a d = .ok (w, e) ∧
      qsort3Loop fuel w e md lvl = .ok (out2, log2) ∧ ∀ c ∈ log2, c ∈ log := by
  obtain ⟨p, hpiv, _⟩ := pivot_spec a d (by omega)
  rw [qsort3Loop] at h
  have hl : a.length > 1 := hlen
  simp only [hl, if_true, hpiv, Res.ok_bind] at h
  obtain ⟨⟨a2, eq, gt⟩, hpart, h⟩ := bind_ok h
  unfold loopNext
  simp only [hpiv, hpart, Res.ok_bind]
  simp only at h
  split_ifs at h ⊢
  · obtain ⟨w1, _, h⟩ := bind_ok h
    obtain ⟨⟨l, log1⟩, _, h⟩ := bind_ok h
    obtain ⟨w2, hw2, h⟩ := bind_ok h
    obtain ⟨⟨g, log2⟩, hq2, h⟩ := bind_ok h
    cases h
    exact ⟨w2, d, g, log2, by rw [hw2]; rfl, hq2, fun c hc => List.mem_append_right _ hc⟩
  · obtain ⟨w1, _, h⟩ := bind_ok h
    obtain ⟨⟨g, log1⟩, _, h⟩ := bind_ok h
    obtain ⟨w2, hw2, h⟩ := bind_ok h
    obtain ⟨⟨l, log2⟩, hq2, h⟩ := bind_ok h
    cases h
    exact ⟨w2, d, l, log2, by rw [hw2]; rfl, hq2, fun c hc => List.mem_append_right _ hc⟩
  · obtain ⟨w1, _, h⟩ := bind_ok h
    obtain ⟨⟨x1, log1⟩, _, h⟩ := bind_ok h
    obtain ⟨w2, _, h⟩ := bind_ok h
    obtain ⟨⟨x2, log2⟩, _, h⟩ := bind_ok h
    obtain ⟨w3, hw3, h⟩ := bind_ok h
    obtain ⟨⟨x3, log3⟩, hq3, h⟩ := bind_ok h
    cases h
    exact ⟨w3, d, x3, log3, by rw [hw3]; rfl, hq3, fun c hc => List.mem_append_right _ hc⟩
  · obtain ⟨w1, _, h⟩ := bind_ok h
    obtain ⟨⟨x1, log1⟩, _, h⟩ := bind_ok h
    obtain ⟨w2, _, h⟩ := bind_ok h
    obtain ⟨⟨x2, log2⟩, _, h⟩ := bind_ok h
    obtain ⟨w3, hw3, h⟩ := bind_ok h
    obtain ⟨⟨x3, log3⟩, hq3, h⟩ := bind_ok h
    cases h
    exact ⟨w3, d + 1, x3, log3, by rw [hw3]; rfl, hq3, fun c hc => List.mem_append_right _ hc⟩
  · obtain ⟨w1, _, h⟩ := bind_ok h
    obtain ⟨⟨x1, log1⟩, _, h⟩ := bind_ok h
    obtain ⟨w2, _, h⟩ := bind_ok h
    obtain ⟨⟨x2, log2⟩, _, h⟩ := bind_ok h
    obtain ⟨w3, hw3, h⟩ := bind_ok h
    obtain ⟨⟨x3, log3⟩, hq3, h⟩ := bind_ok h
    cases h
    exact ⟨w3, d, x3, log3, by rw [hw3]; rfl, hq3, fun c hc => List.mem_append_right _ hc⟩

/-- C19. For every window whose strings have at least `d` bytes and the same
first `d` bytes, and for every budget (0 included, where the window goes to
`heapSort`), `qsort3(a, d, maxDepth)` leaves the window its sorted
permutation; and the window and depth of every call of `qsort3` made on the
way, and of every continuation of the loop of such a call, satisfy the same
precondition. -/
theorem qsort3_shared_prefix (a : List GoString) (d maxDepth lvl fuel : Nat)
    (hpre : SharedPrefix d a) (hfuel : 2 * mu a d + 4 ≤ fuel) :
    ∃ out log, qsort3 fuel a d maxDepth lvl = .ok (out, log) ∧ out.Perm a ∧
      List.Sorted strLe out ∧
      (maxDepth = 0 → heapSort (fuel - 1) a 0 a.length = .ok out) ∧
      ∀ c ∈ log, SharedPrefix c.d c.win ∧
        ∀ w e, LoopReach c.win c.d w e → SharedPrefix e w := by
  obtain ⟨hl, hag⟩ := (sharedPrefix_iff d a).mp hpre
  obtain ⟨out, log, hrun, ⟨hp, hs⟩, hlog⟩ := (qsort3_main fuel).1 a d maxDepth lvl hfuel
  refine ⟨out, log, hrun, hp, hs hag, ?_, ?_⟩
  · intro hmd
    obtain ⟨f, rfl⟩ : ∃ f, fuel = f + 1 := ⟨fuel - 1, by omega⟩
    rw [qsort3] at hrun
    simp only [hmd, if_true] at hrun
    obtain ⟨r, hr, h⟩ := bind_ok hrun
    cases h
    simpa using hr
  · intro c hc
    obtain ⟨_, _, _, _, h5, h6⟩ := hlog c hc
    have hc2 : SharedPrefix c.d c.win := (sharedPrefix_iff _ _).mpr ⟨h6 hl, h5 hag⟩
    exact ⟨hc2, fun w e hr => loopReach_sharedPrefix c.win c.d hc2 w e hr⟩

theorem qsort3_shared_prefix_witness :
    SharedPrefix 1 [[97, 98], [97, 97]] ∧ 2 * mu [[97, 98], [97, 97]] 1 + 4 ≤ 12 ∧
      ∃ out log, qsort3 12 [[97, 98], [97, 97]] 1 1 0 = .ok (out, log) ∧
        out.Perm [[97, 98], [97, 97]] ∧ List.Sorted strLe out ∧
        (1 = 0 → heapSort (12 - 1) [[97, 98], [97, 97]] 0
          (([[97, 98], [97, 97]] : List GoString).length : Int) = .ok out) ∧
        ∀ c ∈ log, SharedPrefix c.d c.win ∧
          ∀ w e, LoopReach c.win c.d w e → SharedPrefix e w :=
  ⟨by decide, by decide,
    qsort3_shared_prefix [[97, 98], [97, 97]] 1 1 0 12 (by decide) (by decide)⟩

/-- C20. On a non-empty window the pivot is the byte at `d` of one of its
strings, so the partition about it leaves a non-empty middle region
(`eq < gt`), and an empty lower region (`eq == 0`) when the pivot is the
sentinel `-1`; hence a pass of the loop of `qsort3` continues either on a
strictly shorter window, or on the whole window at depth `d + 1`, and then
every string has the byte `p` at offset `d`. -/
theorem pivot_in_window (a : List GoString) (d : Nat) (hne : a ≠ []) :
    ∃ p i a2 eq gt, i < a.length ∧ pivot a d = .ok p ∧ p = sample a d i ∧
      partition (a.length + 1) a d p 0 0 a.length = .ok (a2, eq, gt) ∧ eq < gt ∧
      (p = -1 → eq = 0) ∧
      ∀ fuel w e, loopNext fuel a d = .ok (w, e) →
        w.length < a.length ∨
          (w.length = a.length ∧ e = d + 1 ∧ ∀ s ∈ a, d < s.length ∧ byteAt s d = p) := by
  have hlen : 1 ≤ a.length := by
    cases a with
    | nil => exact absurd rfl hne
    | cons x l => simp
  obtain ⟨p, hpiv, i, hi, hpi⟩ := pivot_spec a d hlen
  obtain ⟨a2, eq, gt, hrun, hperm, hinv⟩ :=
    partition_spec (a.length + 1) a d p 0 0 a.length (partInv_init a d p) (by omega)
  have R := regions_of_partInv a a2 d p eq gt hperm hinv
  refine ⟨p, i, a2, eq, gt, hi, hpiv, hpi, hrun, R.eq_lt_gt ⟨i, hi, hpi⟩, ?_, ?_⟩
  · intro hp
    by_contra hne0
    have hpos : 0 < (slice a2 0 eq).length := by rw [R.lenL]; omega
    obtain ⟨s, hs⟩ := List.exists_mem_of_length_pos hpos
    have h1 := R.lt s hs
    have h2 := byteAt_ge s d
    omega
  · intro fuel w e hnext
    obtain ⟨p2, b, eq2, gt2, hpiv2, hpk2, _, R2, hw⟩ := loopNext_cases fuel a d w e hlen hnext
    rw [hpiv] at hpiv2
    cases hpiv2
    have hlt := R2.eq_lt_gt hpk2
    have h1 := R2.lenL
    have h2 := R2.lenE
    have h3 := R2.lenG
    have h4 := R2.length_eq
    have h5 := R2.le2
    rcases hw with ⟨rfl, rfl⟩ | ⟨rfl, rfl⟩ | ⟨rfl, rfl, hp⟩
    · left; omega
    · left; omega
    · by_cases hfull : (slice b eq2 gt2).length < a.length
      · left; exact hfull
      · right
        refine ⟨by omega, rfl, ?_⟩
        intro s hs
        have hsb : s ∈ b := R2.perm.symm.subset hs
        rw [R2.split] at hsb
        have hE : s ∈ slice b eq2 gt2 := by
          rcases List.mem_append.mp hsb with h | h
          · rcases List.mem_append.mp h with h | h
            · have := List.length_pos_of_mem h
              omega
            · exact h
          · have := List.length_pos_of_mem h
            omega
        exact ⟨R2.longE hp s hE, R2.eqv s hE⟩

theorem pivot_in_window_witness :
    ([[120], [120], [120]] : List GoString) ≠ [] ∧
      (∃ p i a2 eq gt, i < ([[120], [120], [120]] : List GoString).length ∧
        pivot [[120], [120], [120]] 0 = .ok p ∧ p = sample [[120], [120], [120]] 0 i ∧
        partition (([[120], [120], [120]] : List GoString).length + 1) [[120], [120], [120]] 0 p
          0 0 ([[120], [120], [120]] : List GoString).length = .ok (a2, eq, gt) ∧ eq < gt ∧
        (p = -1 → eq = 0) ∧
        ∀ fuel w e, loopNext fuel [[120], [120], [120]] 0 = .ok (w, e) →
          w.length < ([[120], [120], [120]] : List GoString).length ∨
            (w.length = ([[120], [120], [120]] : List GoString).length ∧ e = 0 + 1 ∧
              ∀ s ∈ ([[120], [120], [120]] : List GoString),
                0 < s.length ∧ byteAt s 0 = p)) ∧
      loopNext 4 [[120], [120], [120]] 0 = .ok ([[120], [120], [120]], 1) ∧
      loopNext 4 [[120], [120], [120]] 1 = .ok ([], 1) :=
  ⟨by decide, pivot_in_window [[120], [120], [120]] 0 (by decide), by decide, by decide⟩

theorem strLt_iff_firstDiffLt_witness :
    ((strLt [97] [97, 98] = true ↔ FirstDiffLt [97] [97, 98]) ∧
      (∀ (x : Byte) (u : GoString), strLt [97] ([97] ++ x :: u) = true ∧
        (∀ i, i < ([97] : GoString).length → byteAt [97] i = byteAt ([97] ++ x :: u) i) ∧
        byteAt [97] ([97] : GoString).length = -1 ∧
        byteAt ([97] ++ x :: u) ([97] : GoString).length = (x.val : Int))) ∧
      strLt [97] [97, 98] = true ∧ strLt [97, 98] [97] = false :=
  ⟨strLt_iff_firstDiffLt [97] [97, 98], by decide, by decide⟩

end Radix
